import Mathlib

/-!
Range generators: fixed-point rejection sampling.

A shallow embedding of `include/range_generator.hpp` (the `FixedPoint<uint32_t>`
primitive and the three generators `RangeGenerator`, `RangeGeneratorExtended`,
`RangeGeneratorInfinite`) and of the scripted entropy source of
`test/fake_rand.hpp`, followed by theorems about them.

Conventions.
* `uint32_t` and `uint64_t` values are natural numbers; every operation that
  can wrap in C++ carries an explicit `% 2 ^ 32` or `% 2 ^ 64`.
* An entropy source is a script: the list of the words it will yield, in draw
  order (`FakeRand`).  Drawing from an empty script is `Fault.underflow`.
* A remainder by zero is `Fault.divByZero`.
-/

namespace RangeGen

/-- What can go wrong in a call: the scripted source is read past its end
(`front()` of an empty deque), or a remainder by zero is evaluated. -/
inductive Fault where
  | underflow
  | divByZero
  deriving DecidableEq, Repr

deriving instance DecidableEq for Except

/-- The constant `UINT_MAX` of `<limits.h>` for a 32-bit `unsigned int`. -/
def UINT_MAX : Nat := 4294967295

/-! ## FixedPoint<uint32_t> -/

/-- The 32.32 fixed point value: `val` is the `uint64_t` field. -/
structure FixedPoint where
  val : Nat
  deriving DecidableEq, Repr

namespace FixedPoint

/-- The constructor `FixedPoint() : val(0)`. -/
def new : FixedPoint := ⟨0⟩

/-- The body `val = fraction` (the argument is a `uint32_t`, widened). -/
def setFraction (_x : FixedPoint) (fraction : Nat) : FixedPoint := ⟨fraction⟩

/-- The body `val += fraction`, a 64-bit addition. -/
def addFraction (x : FixedPoint) (fraction : Nat) : FixedPoint :=
  ⟨(x.val + fraction) % 2 ^ 64⟩

/-- The body `val *= x`, a 64-bit multiplication. -/
def mul (x : FixedPoint) (k : Nat) : FixedPoint := ⟨(x.val * k) % 2 ^ 64⟩

/-- The body `(uint32_t) val`. -/
def fraction (x : FixedPoint) : Nat := x.val % 2 ^ 32

/-- The body `val >> 32`, returned as a `uint32_t`. -/
def floor (x : FixedPoint) : Nat := (x.val / 2 ^ 32) % 2 ^ 32

end FixedPoint

/-! ## RangeGenerator (basic) -/

/-- The two fields of `RangeGenerator`. -/
structure RangeGenerator where
  range : Nat
  _extraValueThreshold : Nat
  deriving DecidableEq, Repr

namespace RangeGenerator

/-- The constructor: stores the range and the sentinel, and throws
`invalid_argument` (here `none`) when `_range <= 1`. -/
def new (_range : Nat) : Option RangeGenerator :=
  if _range ≤ 1 then none else some ⟨_range, UINT_MAX⟩

/-- The state invariant of a constructed generator: the range is a 32-bit
value above 1, and the cache field holds the sentinel or `2 ^ 32 mod range`. -/
def Valid (g : RangeGenerator) : Prop :=
  2 ≤ g.range ∧ g.range < 2 ^ 32 ∧
    (g._extraValueThreshold = UINT_MAX ∨ g._extraValueThreshold = 2 ^ 32 % g.range)

instance (g : RangeGenerator) : Decidable g.Valid := by
  unfold Valid; infer_instance

/-- The body `f < range`. -/
def isFirstFraction (g : RangeGenerator) (f : Nat) : Bool := decide (f < g.range)

/-- The lazily memoized `-range % range` in 32-bit arithmetic: returns the
threshold and the generator with its cache field updated. -/
def extraValueThreshold (g : RangeGenerator) : Except Fault (Nat × RangeGenerator) :=
  if g._extraValueThreshold = UINT_MAX then
    if g.range = 0 then .error .divByZero
    else
      let t := ((2 ^ 32 - g.range) % 2 ^ 32) % g.range
      .ok (t, ⟨g.range, t⟩)
  else .ok (g._extraValueThreshold, g)

/-- The body `f < extraValueThreshold()`. -/
def isExtraValue (g : RangeGenerator) (f : Nat) : Except Fault (Bool × RangeGenerator) :=
  match g.extraValueThreshold with
  | .error e => .error e
  | .ok (t, g1) => .ok (decide (f < t), g1)

/-- The body `isFirstFraction(f) && isExtraValue(f)`, with the short circuit. -/
def isRejectedValue (g : RangeGenerator) (f : Nat) : Except Fault (Bool × RangeGenerator) :=
  if g.isFirstFraction f then g.isExtraValue f else .ok (false, g)

/-- The product `x` of one loop iteration: `x.setFraction(src()); x *= range`. -/
def product (g : RangeGenerator) (w : Nat) : FixedPoint :=
  (FixedPoint.new.setFraction w).mul g.range

/-- The `do ... while (isRejectedValue(x.fraction()))` loop of `operator()` run
on a script; returns `x.floor()`, the unread rest of the script and the
generator (whose cache may have been filled). -/
def call (g : RangeGenerator) : List Nat → Except Fault (Nat × List Nat × RangeGenerator)
  | [] => .error .underflow
  | w :: rest =>
    match g.isRejectedValue (g.product w).fraction with
    | .error e => .error e
    | .ok (true, g1) => call g1 rest
    | .ok (false, g1) => .ok ((g.product w).floor, rest, g1)

/-- The decision of the rejection test on the word `w`, for a generator
whose range is valid: `true` when the loop iterates again. -/
def rejects (g : RangeGenerator) (w : Nat) : Bool :=
  match g.isRejectedValue (g.product w).fraction with
  | .ok (b, _) => b
  | .error _ => false

/-- The word `w` ends the loop and `operator()` returns `v`. -/
def acceptsWith (g : RangeGenerator) (w v : Nat) : Bool :=
  match g.isRejectedValue (g.product w).fraction with
  | .ok (false, _) => decide ((g.product w).floor = v)
  | _ => false

end RangeGenerator

/-! ## RangeGeneratorExtended -/

/-- The single field of `RangeGeneratorExtended`; its constructor checks
nothing. -/
structure RangeGeneratorExtended where
  range : Nat
  deriving DecidableEq, Repr

namespace RangeGeneratorExtended

/-- The body `- (uint64_t) range % range`, returned as a `uint32_t`. -/
def extraValueThreshold (g : RangeGeneratorExtended) : Except Fault Nat :=
  if g.range = 0 then .error .divByZero
  else .ok ((((2 ^ 64 - g.range) % 2 ^ 64) % g.range) % 2 ^ 32)

/-- The body `f < range`. -/
def isFirstFraction (g : RangeGeneratorExtended) (f : Nat) : Bool := decide (f < g.range)

/-- The body `f < extraValueThreshold()`. -/
def isExtraValue (g : RangeGeneratorExtended) (f : Nat) : Except Fault Bool :=
  match g.extraValueThreshold with
  | .error e => .error e
  | .ok t => .ok (decide (f < t))

/-- The body `isFirstFraction(f) && isExtraValue(f)`, with the short circuit. -/
def isRejectedValue (g : RangeGeneratorExtended) (f : Nat) : Except Fault Bool :=
  if g.isFirstFraction f then g.isExtraValue f else .ok false

/-- The body `-f < range`, the negation taken in 32 bits. -/
def canZero (g : RangeGeneratorExtended) (f : Nat) : Bool :=
  decide ((2 ^ 32 - f) % 2 ^ 32 < g.range)

/-- The loop condition `x.fraction() == 0 && isRejectedValue(addend.fraction())`,
with the short circuit. -/
def loopCondition (g : RangeGeneratorExtended) (x addend : FixedPoint) : Except Fault Bool :=
  if x.fraction = 0 then g.isRejectedValue addend.fraction else .ok false

/-- The first product of an iteration: `x.setFraction(src()); x *= range`. -/
def product (g : RangeGeneratorExtended) (w : Nat) : FixedPoint :=
  (FixedPoint.new.setFraction w).mul g.range

/-- The body of the `if (canZero(...))` branch: `addend` is set from the second
word and its integer part is added to `x`.  Returns the new `x` and `addend`. -/
def extend (g : RangeGeneratorExtended) (x : FixedPoint) (w2 : Nat) : FixedPoint × FixedPoint :=
  let addend := (FixedPoint.new.setFraction w2).mul g.range
  (x.addFraction addend.floor, addend)

/-- The `do ... while` loop of `operator()` from the state where `addend` holds
the given value (zero on entry, or what a previous iteration left). Returns
`x.floor()` and the unread rest of the script. -/
def loop (g : RangeGeneratorExtended) (addend : FixedPoint) :
    List Nat → Except Fault (Nat × List Nat)
  | [] => .error .underflow
  | w1 :: rest =>
    if g.canZero (g.product w1).fraction then
      match rest with
      | [] => .error .underflow
      | w2 :: rest2 =>
        match g.loopCondition (g.extend (g.product w1) w2).1 (g.extend (g.product w1) w2).2 with
        | .error e => .error e
        | .ok true => loop g (g.extend (g.product w1) w2).2 rest2
        | .ok false => .ok ((g.extend (g.product w1) w2).1.floor, rest2)
    else
      match g.loopCondition (g.product w1) addend with
      | .error e => .error e
      | .ok true => loop g addend rest
      | .ok false => .ok ((g.product w1).floor, rest)

/-- One pass through the loop body and its condition, drawing from the
script: returns whether the loop iterates again (the attempt is rejected),
`x`, `addend` and the unread rest of the script. -/
def iteration (g : RangeGeneratorExtended) (addend : FixedPoint) :
    List Nat → Except Fault (Bool × FixedPoint × FixedPoint × List Nat)
  | [] => .error .underflow
  | w1 :: rest =>
    if g.canZero (g.product w1).fraction then
      match rest with
      | [] => .error .underflow
      | w2 :: rest2 =>
        match g.loopCondition (g.extend (g.product w1) w2).1 (g.extend (g.product w1) w2).2 with
        | .error e => .error e
        | .ok b => .ok (b, (g.extend (g.product w1) w2).1, (g.extend (g.product w1) w2).2, rest2)
    else
      match g.loopCondition (g.product w1) addend with
      | .error e => .error e
      | .ok b => .ok (b, g.product w1, addend, rest)

/-- One attempt on the word pair `(w1, w2)` is rejected. -/
def rejects (g : RangeGeneratorExtended) (addend : FixedPoint) (w1 w2 : Nat) : Bool :=
  match g.iteration addend [w1, w2] with
  | .ok (b, _, _, _) => b
  | .error _ => false

/-- One attempt on the word pair `(w1, w2)` is accepted with result `v`. -/
def acceptsWith (g : RangeGeneratorExtended) (addend : FixedPoint) (w1 w2 v : Nat) : Bool :=
  match g.iteration addend [w1, w2] with
  | .ok (false, x, _, _) => decide (x.floor = v)
  | _ => false

/-- The call `operator()`: both fixed point values start at zero. -/
def call (g : RangeGeneratorExtended) (script : List Nat) : Except Fault (Nat × List Nat) :=
  g.loop FixedPoint.new script

end RangeGeneratorExtended

/-! ## RangeGeneratorInfinite -/

/-- The single field of `RangeGeneratorInfinite`; its constructor checks
nothing. -/
structure RangeGeneratorInfinite where
  range : Nat
  deriving DecidableEq, Repr

namespace RangeGeneratorInfinite

/-- The recursive `carry(fprev, src)`: returns the carry (0 or 1) and the
unread rest of the script. -/
def carry (g : RangeGeneratorInfinite) (fprev : Nat) (script : List Nat) :
    Except Fault (Nat × List Nat) :=
  if (g.range + fprev) % 2 ^ 32 < fprev then
    match script with
    | [] => .error .underflow
    | w :: rest =>
      let cur := (FixedPoint.new.setFraction w).mul g.range
      let cur_sum := (cur.floor + fprev) % 2 ^ 32
      if cur_sum < fprev then .ok (1, rest)
      else if cur_sum = 4294967295 then carry g cur.fraction rest
      else .ok (0, rest)
  else .ok (0, script)

/-- The call `operator()`: `x.floor() + carry(x.fraction(), src)` in 32 bits. -/
def call (g : RangeGeneratorInfinite) : List Nat → Except Fault (Nat × List Nat)
  | [] => .error .underflow
  | w :: rest =>
    let x := (FixedPoint.new.setFraction w).mul g.range
    match g.carry x.fraction rest with
    | .error e => .error e
    | .ok (c, rest1) => .ok ((x.floor + c) % 2 ^ 32, rest1)

end RangeGeneratorInfinite

/-- The number written by the words of a script in base `2 ^ 32`, most
significant word first: the sum of `w_i * 2 ^ (32 * (k - 1 - i))`. -/
def wordsValue : List Nat → Nat
  | [] => 0
  | w :: ws => w * 2 ^ (32 * ws.length) + wordsValue ws

end RangeGen

/-! # Theorems -/

namespace RangeGen

/-! ## Arithmetic helpers -/

theorem word_mul_add_lt (w k a : Nat) (hw : w < 2 ^ 32) (hk : k < 2 ^ 32) (ha : a < 2 ^ 32) :
    w * k + a < 2 ^ 64 := by
  have h : w * k ≤ 4294967295 * 4294967295 := Nat.mul_le_mul (by omega) (by omega)
  omega

theorem word_mul_lt (w k : Nat) (hw : w < 2 ^ 32) (hk : k < 2 ^ 32) : w * k < 2 ^ 64 := by
  have h := word_mul_add_lt w k 0 hw hk (by omega)
  omega

theorem word_mul_le (w R : Nat) (hw : w < 2 ^ 32) : w * R ≤ 4294967295 * R :=
  Nat.mul_le_mul_right R (by omega)

theorem neg32_mod (R : Nat) (h1 : 1 ≤ R) (hR : R < 2 ^ 32) :
    ((2 ^ 32 - R) % 2 ^ 32) % R = 2 ^ 32 % R := by
  have h : (2 ^ 32 - R) % 2 ^ 32 = 2 ^ 32 - R := Nat.mod_eq_of_lt (by omega)
  rw [h]
  have h2 : 2 ^ 32 = (2 ^ 32 - R) + R := by omega
  conv_rhs => rw [h2]
  simp

theorem neg64_mod (R : Nat) (h1 : 1 ≤ R) (hR : R < 2 ^ 32) :
    (((2 ^ 64 - R) % 2 ^ 64) % R) % 2 ^ 32 = 2 ^ 64 % R := by
  have h : (2 ^ 64 - R) % 2 ^ 64 = 2 ^ 64 - R := Nat.mod_eq_of_lt (by omega)
  rw [h]
  have h2 : 2 ^ 64 = (2 ^ 64 - R) + R := by omega
  have h3 : (2 ^ 64 - R) % R = 2 ^ 64 % R := by
    conv_rhs => rw [h2]
    simp
  rw [h3]
  have h4 : 2 ^ 64 % R < R := Nat.mod_lt _ (by omega)
  exact Nat.mod_eq_of_lt (by omega)

/-! ## Counting the words of a band

For a modulus `M` (here `2 ^ 32` or `2 ^ 64`) and a range `R`, the words `w < M`
whose product `w * R` has integer part `v` and a fraction not below `M % R`
form an interval of length `M / R`. -/

theorem le_mul_iff_ceil (R n w : Nat) (hR : 0 < R) : n ≤ w * R ↔ (n + R - 1) / R ≤ w := by
  rw [Nat.div_le_iff_le_mul_add_pred hR]
  have hc : R * w = w * R := Nat.mul_comm _ _
  constructor <;> intro h <;> omega

theorem ceil_add_mul (R k c : Nat) (hR : 0 < R) :
    (k * R + c + R - 1) / R = k + (c + R - 1) / R := by
  have h : k * R + c + R - 1 = (c + R - 1) + k * R := by omega
  rw [h, Nat.add_mul_div_right _ _ hR]
  omega

theorem band_iff (M T P v : Nat) (hM : 0 < M) :
    (P / M = v ∧ ¬ (P % M < T)) ↔ (v * M + T ≤ P ∧ P < (v + 1) * M) := by
  have h1 := Nat.div_add_mod P M
  have h2 := Nat.mod_lt P hM
  constructor
  · rintro ⟨rfl, h⟩
    have hc : M * (P / M) = (P / M) * M := Nat.mul_comm _ _
    constructor
    · omega
    · rw [Nat.add_mul]; omega
  · rintro ⟨h3, h4⟩
    have hv : P / M = v := Nat.div_eq_of_lt_le (by omega) h4
    subst hv
    have hc : M * (P / M) = (P / M) * M := Nat.mul_comm _ _
    exact ⟨rfl, by omega⟩

theorem band_card (M R q T v : Nat) (hR : 0 < R) (hv : v < R) (hM : M = q * R + T) :
    ((Finset.range M).filter
      (fun w => v * M + T ≤ w * R ∧ w * R < (v + 1) * M)).card = q := by
  have hset : (Finset.range M).filter
      (fun w => v * M + T ≤ w * R ∧ w * R < (v + 1) * M)
      = Finset.Ico (v * q + ((v + 1) * T + R - 1) / R)
          ((v + 1) * q + ((v + 1) * T + R - 1) / R) := by
    ext w
    simp only [Finset.mem_filter, Finset.mem_range, Finset.mem_Ico]
    have e1 : (v * M + T + R - 1) / R = v * q + ((v + 1) * T + R - 1) / R := by
      rw [← ceil_add_mul R (v * q) ((v + 1) * T) hR]
      congr 2
      subst hM
      ring
    have e2 : ((v + 1) * M + R - 1) / R = (v + 1) * q + ((v + 1) * T + R - 1) / R := by
      rw [← ceil_add_mul R ((v + 1) * q) ((v + 1) * T) hR]
      congr 2
      subst hM
      ring
    rw [← e1, ← e2, ← le_mul_iff_ceil R _ w hR]
    have h3 : w * R < (v + 1) * M ↔ w < ((v + 1) * M + R - 1) / R := by
      rw [← not_le, ← not_le, not_iff_not]
      exact le_mul_iff_ceil R _ w hR
    rw [← h3]
    constructor
    · rintro ⟨_, h⟩; exact h
    · intro h
      refine ⟨?_, h⟩
      have h5 : (v + 1) * M ≤ R * M := Nat.mul_le_mul_right _ (by omega)
      have h6 : w * R < M * R := by rw [Nat.mul_comm M R]; omega
      exact Nat.lt_of_mul_lt_mul_right h6
  rw [hset, Nat.card_Ico, Nat.add_mul]
  omega

theorem accepted_card (M R v : Nat) (hM : 0 < M) (hR : 0 < R) (hv : v < R) :
    ((Finset.range M).filter
      (fun w => w * R / M = v ∧ ¬ (w * R % M < M % R))).card = M / R := by
  have h : (Finset.range M).filter (fun w => w * R / M = v ∧ ¬ (w * R % M < M % R))
      = (Finset.range M).filter (fun w => v * M + M % R ≤ w * R ∧ w * R < (v + 1) * M) := by
    apply Finset.filter_congr
    intro w _
    exact band_iff M (M % R) (w * R) v hM
  rw [h]
  apply band_card M R (M / R) (M % R) v hR hv
  have := Nat.div_add_mod M R
  have hc : R * (M / R) = M / R * R := Nat.mul_comm _ _
  omega

theorem rejected_card (M R : Nat) (hM : 0 < M) (hR : 0 < R) :
    ((Finset.range M).filter (fun w => w * R % M < M % R)).card = M % R := by
  have hacc : ((Finset.range M).filter (fun w => ¬ (w * R % M < M % R))).card
      = R * (M / R) := by
    have hmaps : ∀ w ∈ (Finset.range M).filter (fun w => ¬ (w * R % M < M % R)),
        (fun w => w * R / M) w ∈ Finset.range R := by
      intro w hw
      simp only [Finset.mem_filter, Finset.mem_range] at hw
      simp only [Finset.mem_range]
      apply Nat.div_lt_of_lt_mul
      exact Nat.mul_lt_mul_of_pos_right hw.1 hR
    rw [Finset.card_eq_sum_card_fiberwise hmaps]
    have hfib : ∀ v ∈ Finset.range R,
        (((Finset.range M).filter (fun w => ¬ (w * R % M < M % R))).filter
          (fun w => w * R / M = v)).card = M / R := by
      intro v hv
      rw [Finset.filter_filter, ← accepted_card M R v hM hR (Finset.mem_range.mp hv)]
      congr 1
      apply Finset.filter_congr
      intro w _
      exact And.comm
    rw [Finset.sum_congr rfl hfib]
    simp
  have hsum := Finset.filter_card_add_filter_neg_card_eq_card (s := Finset.range M)
    (fun w => w * R % M < M % R)
  rw [hacc, Finset.card_range] at hsum
  have := Nat.div_add_mod M R
  omega

/-! ## FixedPoint -/

theorem FixedPoint.product_val (w R : Nat) (hw : w < 2 ^ 32) (hR : R < 2 ^ 32) :
    ((FixedPoint.new.setFraction w).mul R).val = w * R := by
  simp only [FixedPoint.setFraction, FixedPoint.mul]
  exact Nat.mod_eq_of_lt (word_mul_lt w R hw hR)

theorem FixedPoint.product_fraction (w R : Nat) (hw : w < 2 ^ 32) (hR : R < 2 ^ 32) :
    ((FixedPoint.new.setFraction w).mul R).fraction = w * R % 2 ^ 32 := by
  rw [FixedPoint.fraction, FixedPoint.product_val w R hw hR]

theorem FixedPoint.product_floor (w R : Nat) (hw : w < 2 ^ 32) (hR : R < 2 ^ 32) :
    ((FixedPoint.new.setFraction w).mul R).floor = w * R / 2 ^ 32 := by
  rw [FixedPoint.floor, FixedPoint.product_val w R hw hR]
  have := word_mul_lt w R hw hR
  omega

/-- C8. `FixedPoint<uint32_t>` arithmetic is exact: for 32-bit `w`, `k`, `a`,
`setFraction(w)` gives the value `w` with integer part 0 and fraction `w`;
multiplying by `k` gives exactly `w * k` and a further `addFraction(a)` gives
exactly `w * k + a`, neither wrapping in 64 bits; and for every 64-bit value
`fraction()` is `val mod 2^32`, `floor()` is `val >> 32`, and
`val = floor() * 2^32 + fraction()`. -/
theorem fixedPoint_exact (w k a val : Nat) (hw : w < 2 ^ 32) (hk : k < 2 ^ 32)
    (ha : a < 2 ^ 32) (hval : val < 2 ^ 64) (x0 : FixedPoint) :
    (x0.setFraction w).val = w ∧ (x0.setFraction w).floor = 0 ∧
    (x0.setFraction w).fraction = w ∧
    ((x0.setFraction w).mul k).val = w * k ∧
    (((x0.setFraction w).mul k).addFraction a).val = w * k + a ∧
    w * k + a < 2 ^ 64 ∧
    (FixedPoint.mk val).fraction = val % 2 ^ 32 ∧
    (FixedPoint.mk val).floor = val / 2 ^ 32 ∧
    (FixedPoint.mk val).floor = val >>> 32 ∧
    val = (FixedPoint.mk val).floor * 2 ^ 32 + (FixedPoint.mk val).fraction := by
  have h1 := word_mul_add_lt w k a hw hk ha
  have h2 := word_mul_lt w k hw hk
  have hm : (w * k) % 2 ^ 64 = w * k := Nat.mod_eq_of_lt h2
  have hfl : (val / 2 ^ 32) % 2 ^ 32 = val / 2 ^ 32 := by omega
  refine ⟨rfl, ?_, ?_, ?_, ?_, h1, rfl, ?_, ?_, ?_⟩
  · simp only [FixedPoint.setFraction, FixedPoint.floor]; omega
  · simp only [FixedPoint.setFraction, FixedPoint.fraction]; omega
  · simp only [FixedPoint.setFraction, FixedPoint.mul]; exact hm
  · simp only [FixedPoint.setFraction, FixedPoint.mul, FixedPoint.addFraction, hm]
    exact Nat.mod_eq_of_lt h1
  · simp only [FixedPoint.floor]; exact hfl
  · simp only [FixedPoint.floor, Nat.shiftRight_eq_div_pow]; exact hfl
  · simp only [FixedPoint.floor, FixedPoint.fraction]; omega

/-- Witness for `fixedPoint_exact`, at `w = 0xFFFFFFFF`, `k = 0xFFFFFFFF`,
`a = 0xFFFFFFFF` and `val = 2^64 - 1`. -/
theorem fixedPoint_exact_witness :
    (FixedPoint.new.setFraction 4294967295).val = 4294967295 ∧
    (FixedPoint.new.setFraction 4294967295).floor = 0 ∧
    (FixedPoint.new.setFraction 4294967295).fraction = 4294967295 ∧
    ((FixedPoint.new.setFraction 4294967295).mul 4294967295).val = 4294967295 * 4294967295 ∧
    (((FixedPoint.new.setFraction 4294967295).mul 4294967295).addFraction 4294967295).val
      = 4294967295 * 4294967295 + 4294967295 ∧
    4294967295 * 4294967295 + 4294967295 < 2 ^ 64 ∧
    (FixedPoint.mk 18446744073709551615).fraction = 18446744073709551615 % 2 ^ 32 ∧
    (FixedPoint.mk 18446744073709551615).floor = 18446744073709551615 / 2 ^ 32 ∧
    (FixedPoint.mk 18446744073709551615).floor = 18446744073709551615 >>> 32 ∧
    18446744073709551615 = (FixedPoint.mk 18446744073709551615).floor * 2 ^ 32
      + (FixedPoint.mk 18446744073709551615).fraction :=
  fixedPoint_exact 4294967295 4294967295 4294967295 18446744073709551615
    (by decide) (by decide) (by decide) (by decide) FixedPoint.new

/-! ## Basic generator: construction and the memoized threshold -/

theorem RangeGenerator.threshold_ne_sentinel (R : Nat) (h1 : 1 ≤ R) (hR : R < 2 ^ 32) :
    2 ^ 32 % R ≠ UINT_MAX := by
  have h : 2 ^ 32 % R < R := Nat.mod_lt _ (by omega)
  unfold UINT_MAX
  omega

theorem RangeGenerator.basic_extraValueThreshold_spec (g : RangeGenerator) (hg : g.Valid) :
    ∃ g1, g.extraValueThreshold = .ok (2 ^ 32 % g.range, g1) ∧ g1.Valid ∧
      g1.range = g.range ∧ g1._extraValueThreshold = 2 ^ 32 % g.range := by
  obtain ⟨h2, hR, hc⟩ := hg
  have hne := RangeGenerator.threshold_ne_sentinel g.range (by omega) hR
  have hneg := neg32_mod g.range (by omega) hR
  by_cases hs : g._extraValueThreshold = UINT_MAX
  · refine ⟨⟨g.range, 2 ^ 32 % g.range⟩, ?_, ⟨h2, hR, Or.inr rfl⟩, rfl, rfl⟩
    have h0 : g.range ≠ 0 := by omega
    simp only [RangeGenerator.extraValueThreshold, hs, if_true, h0, if_false, hneg]
  · have hc2 : g._extraValueThreshold = 2 ^ 32 % g.range := by
      rcases hc with h | h
      · exact absurd h hs
      · exact h
    refine ⟨g, ?_, ⟨h2, hR, Or.inr hc2⟩, rfl, hc2⟩
    simp only [RangeGenerator.extraValueThreshold, hs, if_false]
    rw [hc2]

theorem RangeGenerator.basic_isRejectedValue_spec (g : RangeGenerator) (hg : g.Valid) (f : Nat) :
    ∃ g1, g.isRejectedValue f = .ok (decide (f < 2 ^ 32 % g.range), g1) ∧ g1.Valid ∧
      g1.range = g.range := by
  have hT : 2 ^ 32 % g.range < g.range := Nat.mod_lt _ (by have := hg.1; omega)
  by_cases hf : f < g.range
  · obtain ⟨g1, he, hv, hr, _⟩ := RangeGenerator.basic_extraValueThreshold_spec g hg
    refine ⟨g1, ?_, hv, hr⟩
    simp only [RangeGenerator.isRejectedValue, RangeGenerator.isFirstFraction, hf, decide_True,
      if_true, RangeGenerator.isExtraValue, he]
  · refine ⟨g, ?_, hg, rfl⟩
    have hfT : ¬ f < 2 ^ 32 % g.range := by omega
    simp only [RangeGenerator.isRejectedValue, RangeGenerator.isFirstFraction, hf, hfT,
      decide_False, Bool.false_eq_true, if_false]

theorem RangeGenerator.basic_call_valid (script : List Nat) :
    ∀ (g : RangeGenerator), g.Valid → ∀ v rest g1, g.call script = .ok (v, rest, g1) →
      g1.Valid ∧ g1.range = g.range := by
  induction script with
  | nil => intro g _ v rest g1 h; simp [RangeGenerator.call] at h
  | cons w ws ih =>
    intro g hg v rest g1 h
    obtain ⟨g2, he, hv, hr⟩ := RangeGenerator.basic_isRejectedValue_spec g hg (g.product w).fraction
    rw [RangeGenerator.call, he] at h
    by_cases hb : (g.product w).fraction < 2 ^ 32 % g.range
    · simp only [hb, decide_True] at h
      have := ih g2 hv v rest g1 h
      exact ⟨this.1, this.2.trans hr⟩
    · simp only [hb, decide_False, Except.ok.injEq, Prod.mk.injEq] at h
      obtain ⟨_, _, h3⟩ := h
      subst h3
      exact ⟨hv, hr⟩

/-- C7. Construction validation of the basic generator: constructing with
range `r` fails exactly when `r <= 1`; it fails for 0 and 1 and succeeds for
2; and a successful construction stores `range = r` with the threshold field
at its not-yet-computed sentinel `UINT_MAX`. -/
theorem basic_construction_validation (r : Nat) :
    (RangeGenerator.new r = none ↔ r ≤ 1) ∧
    (∀ g, RangeGenerator.new r = some g → g.range = r ∧ g._extraValueThreshold = UINT_MAX) ∧
    RangeGenerator.new 0 = none ∧ RangeGenerator.new 1 = none ∧
    RangeGenerator.new 2 = some ⟨2, UINT_MAX⟩ := by
  refine ⟨?_, ?_, rfl, rfl, rfl⟩
  · by_cases h : r ≤ 1 <;> simp [RangeGenerator.new, h]
  · intro g hg
    by_cases h : r ≤ 1
    · simp [RangeGenerator.new, h] at hg
    · simp only [RangeGenerator.new, h, if_false, Option.some.injEq] at hg
      subst hg
      exact ⟨rfl, rfl⟩

/-- C9. The memoized threshold of the basic generator, for a generator whose
range `R` satisfies `2 <= R < 2^32` and whose cache field holds the sentinel or
`2^32 mod R`: the 32-bit computation `((2^32 - R) mod 2^32) mod R` equals
`2^32 mod R`; that value is never the sentinel; the constructor starts in the
sentinel state; `extraValueThreshold()` returns `2^32 mod R`, leaves the cache
holding `2^32 mod R`, and a later call returns the same value from the same
state; and the rejection test and a whole call of `operator()` leave the cache
field either the sentinel or `2^32 mod R`. -/
theorem basic_threshold_memoized (g : RangeGenerator) (hg : g.Valid) :
    ((2 ^ 32 - g.range) % 2 ^ 32) % g.range = 2 ^ 32 % g.range ∧
    2 ^ 32 % g.range ≠ UINT_MAX ∧
    RangeGenerator.new g.range = some ⟨g.range, UINT_MAX⟩ ∧
    (RangeGenerator.mk g.range UINT_MAX).Valid ∧
    (∃ g1, g.extraValueThreshold = .ok (2 ^ 32 % g.range, g1) ∧ g1.Valid ∧
      g1.range = g.range ∧ g1._extraValueThreshold = 2 ^ 32 % g.range ∧
      g1.extraValueThreshold = .ok (2 ^ 32 % g.range, g1)) ∧
    (∀ f, ∃ b g1, g.isRejectedValue f = .ok (b, g1) ∧ g1.Valid ∧ g1.range = g.range) ∧
    (∀ script v rest g1, g.call script = .ok (v, rest, g1) →
      g1.Valid ∧ g1.range = g.range) := by
  have h2 := hg.1
  have hR := hg.2.1
  have hne := RangeGenerator.threshold_ne_sentinel g.range (by omega) hR
  refine ⟨neg32_mod g.range (by omega) hR, hne, ?_, ⟨h2, hR, Or.inl rfl⟩, ?_, ?_, ?_⟩
  · have h : ¬ g.range ≤ 1 := by omega
    simp [RangeGenerator.new, h]
  · obtain ⟨g1, he, hv, hr, hc⟩ := RangeGenerator.basic_extraValueThreshold_spec g hg
    refine ⟨g1, he, hv, hr, hc, ?_⟩
    have hs : g1._extraValueThreshold ≠ UINT_MAX := by rw [hc]; exact hne
    simp only [RangeGenerator.extraValueThreshold, hs, if_false]
    rw [hc]
  · intro f
    obtain ⟨g1, he, hv, hr⟩ := RangeGenerator.basic_isRejectedValue_spec g hg f
    exact ⟨_, g1, he, hv, hr⟩
  · intro script v rest g1 h
    exact RangeGenerator.basic_call_valid script g hg v rest g1 h

/-- Witness for `basic_threshold_memoized`: a freshly constructed generator of
range 10. -/
theorem basic_threshold_memoized_witness :
    (RangeGenerator.mk 10 UINT_MAX).Valid ∧
    (RangeGenerator.mk 10 UINT_MAX).extraValueThreshold = .ok (6, ⟨10, 6⟩) ∧
    (RangeGenerator.mk 10 6).extraValueThreshold = .ok (6, ⟨10, 6⟩) ∧
    ((2 ^ 32 - 10) % 2 ^ 32) % 10 = 2 ^ 32 % 10 :=
  ⟨by decide, by decide, by decide,
    (basic_threshold_memoized ⟨10, UINT_MAX⟩ (by decide)).1⟩

/-! ## Basic generator: the rejection test counted over all words -/

theorem RangeGenerator.basic_product_fraction (g : RangeGenerator) (hg : g.Valid) (w : Nat)
    (hw : w < 2 ^ 32) : (g.product w).fraction = w * g.range % 2 ^ 32 :=
  FixedPoint.product_fraction w g.range hw hg.2.1

theorem RangeGenerator.basic_product_floor (g : RangeGenerator) (hg : g.Valid) (w : Nat)
    (hw : w < 2 ^ 32) : (g.product w).floor = w * g.range / 2 ^ 32 :=
  FixedPoint.product_floor w g.range hw hg.2.1

theorem RangeGenerator.basic_rejects_iff (g : RangeGenerator) (hg : g.Valid) (w : Nat)
    (hw : w < 2 ^ 32) :
    g.rejects w = true ↔ w * g.range % 2 ^ 32 < 2 ^ 32 % g.range := by
  obtain ⟨g1, he, _, _⟩ := RangeGenerator.basic_isRejectedValue_spec g hg (g.product w).fraction
  rw [RangeGenerator.rejects, he, ← RangeGenerator.basic_product_fraction g hg w hw]
  exact decide_eq_true_iff

theorem RangeGenerator.basic_acceptsWith_iff (g : RangeGenerator) (hg : g.Valid) (w v : Nat)
    (hw : w < 2 ^ 32) :
    g.acceptsWith w v = true ↔
      (w * g.range / 2 ^ 32 = v ∧ ¬ (w * g.range % 2 ^ 32 < 2 ^ 32 % g.range)) := by
  obtain ⟨g1, he, _, _⟩ := RangeGenerator.basic_isRejectedValue_spec g hg (g.product w).fraction
  rw [RangeGenerator.acceptsWith, he, ← RangeGenerator.basic_product_fraction g hg w hw,
    ← RangeGenerator.basic_product_floor g hg w hw]
  by_cases hb : (g.product w).fraction < 2 ^ 32 % g.range
  · rw [decide_eq_true hb]
    exact ⟨fun h => (by cases h), fun h => absurd hb h.2⟩
  · rw [decide_eq_false hb]
    exact ⟨fun h => ⟨of_decide_eq_true h, hb⟩, fun h => decide_eq_true h.1⟩

theorem RangeGenerator.basic_call_single (g : RangeGenerator) (hg : g.Valid) (w : Nat)
    (hw : w < 2 ^ 32) :
    (g.rejects w = true → g.call [w] = .error .underflow) ∧
    (g.rejects w = false →
      ∃ g1, g.call [w] = .ok (w * g.range / 2 ^ 32, [], g1)) := by
  obtain ⟨g1, he, _, _⟩ := RangeGenerator.basic_isRejectedValue_spec g hg (g.product w).fraction
  rw [RangeGenerator.rejects, RangeGenerator.call, he,
    ← RangeGenerator.basic_product_floor g hg w hw]
  by_cases hb : (g.product w).fraction < 2 ^ 32 % g.range
  · rw [decide_eq_true hb]
    exact ⟨fun _ => rfl, fun h => (by cases h)⟩
  · rw [decide_eq_false hb]
    exact ⟨fun h => (by cases h), fun _ => ⟨g1, rfl⟩⟩

/-- C1. The basic generator is exactly unbiased: for a generator of range `R`,
`2 <= R < 2^32`, and every `v < R`, exactly `floor(2^32 / R)` of the `2^32`
entropy words are accepted with result `v`, where a word `w` is accepted with
result `v` exactly when `floor(w*R / 2^32) = v` and not
(`fraction(w*R) < R` and `fraction(w*R) < 2^32 mod R`), and exactly then
`operator()` run on the one-word script `[w]` returns `v`. -/
theorem basic_unbiased (g : RangeGenerator) (hg : g.Valid) (v : Nat) (hv : v < g.range) :
    ((Finset.range (2 ^ 32)).filter (fun w => g.acceptsWith w v = true)).card
      = 2 ^ 32 / g.range ∧
    (∀ w, w < 2 ^ 32 →
      (g.acceptsWith w v = true ↔
        (w * g.range / 2 ^ 32 = v ∧
          ¬ (w * g.range % 2 ^ 32 < g.range ∧ w * g.range % 2 ^ 32 < 2 ^ 32 % g.range))) ∧
      (g.acceptsWith w v = true ↔ ∃ g1, g.call [w] = .ok (v, [], g1)) ∧
      (g.product w).fraction = w * g.range % 2 ^ 32 ∧
      (g.product w).floor = w * g.range / 2 ^ 32) := by
  have hRpos : 0 < g.range := by have := hg.1; omega
  have hT : 2 ^ 32 % g.range < g.range := Nat.mod_lt _ hRpos
  constructor
  · refine Eq.trans (congrArg Finset.card (Finset.filter_congr ?_))
      (accepted_card (2 ^ 32) g.range v (Nat.two_pow_pos 32) hRpos hv)
    intro w hw
    exact RangeGenerator.basic_acceptsWith_iff g hg w v (Finset.mem_range.mp hw)
  · intro w hw
    have hacc := RangeGenerator.basic_acceptsWith_iff g hg w v hw
    have hrej := RangeGenerator.basic_rejects_iff g hg w hw
    have hcall := RangeGenerator.basic_call_single g hg w hw
    refine ⟨?_, ?_, RangeGenerator.basic_product_fraction g hg w hw,
      RangeGenerator.basic_product_floor g hg w hw⟩
    · rw [hacc]
      constructor
      · rintro ⟨h1, h2⟩; exact ⟨h1, fun h => h2 h.2⟩
      · rintro ⟨h1, h2⟩; exact ⟨h1, fun h => h2 ⟨by omega, h⟩⟩
    · rw [hacc]
      constructor
      · rintro ⟨h1, h2⟩
        have hr : g.rejects w = false := by
          rw [← Bool.not_eq_true, hrej]; exact h2
        obtain ⟨g1, h3⟩ := hcall.2 hr
        exact ⟨g1, by rw [h3, h1]⟩
      · rintro ⟨g1, h3⟩
        by_cases hr : g.rejects w = true
        · rw [hcall.1 hr] at h3; cases h3
        · have hr2 : g.rejects w = false := by simpa using hr
          obtain ⟨g2, h4⟩ := hcall.2 hr2
          rw [h4] at h3
          simp only [Except.ok.injEq, Prod.mk.injEq] at h3
          exact ⟨h3.1, fun h => hr (hrej.mpr h)⟩

/-- Witness for `basic_unbiased`: a fresh generator of range 10 and `v = 3`. -/
theorem basic_unbiased_witness :
    (RangeGenerator.mk 10 UINT_MAX).Valid ∧ 3 < (RangeGenerator.mk 10 UINT_MAX).range ∧
    ((Finset.range (2 ^ 32)).filter
      (fun w => (RangeGenerator.mk 10 UINT_MAX).acceptsWith w 3 = true)).card = 2 ^ 32 / 10 :=
  ⟨by decide, by decide, (basic_unbiased ⟨10, UINT_MAX⟩ (by decide) 3 (by decide)).1⟩

/-- C10. Rejection count of the basic generator of range `R`, `2 <= R < 2^32`:
a word `w` is rejected exactly when `(w*R mod 2^32) < 2^32 mod R` (every
fraction below that threshold passes the `fraction < range` test, which so
never changes the decision), and exactly then `operator()` on the one-word
script `[w]` draws again; exactly `2^32 mod R` words are rejected; that number
is less than `R`; so at most `R` words are rejected and some word is
accepted. -/
theorem basic_rejection_count (g : RangeGenerator) (hg : g.Valid) :
    (∀ w, w < 2 ^ 32 →
      (g.rejects w = true ↔ w * g.range % 2 ^ 32 < 2 ^ 32 % g.range) ∧
      (g.rejects w = true ↔ g.call [w] = .error .underflow)) ∧
    (∀ f, f < 2 ^ 32 % g.range → g.isFirstFraction f = true) ∧
    ((Finset.range (2 ^ 32)).filter (fun w => g.rejects w = true)).card = 2 ^ 32 % g.range ∧
    2 ^ 32 % g.range < g.range ∧
    ((Finset.range (2 ^ 32)).filter (fun w => g.rejects w = true)).card ≤ g.range ∧
    1 ≤ ((Finset.range (2 ^ 32)).filter (fun w => ¬ g.rejects w = true)).card := by
  have hRpos : 0 < g.range := by have := hg.1; omega
  have hR := hg.2.1
  have hT : 2 ^ 32 % g.range < g.range := Nat.mod_lt _ hRpos
  have hcard : ((Finset.range (2 ^ 32)).filter (fun w => g.rejects w = true)).card
      = 2 ^ 32 % g.range := by
    refine Eq.trans (congrArg Finset.card (Finset.filter_congr ?_))
      (rejected_card (2 ^ 32) g.range (Nat.two_pow_pos 32) hRpos)
    intro w hw
    exact RangeGenerator.basic_rejects_iff g hg w (Finset.mem_range.mp hw)
  refine ⟨?_, ?_, hcard, hT, by omega, ?_⟩
  · intro w hw
    refine ⟨RangeGenerator.basic_rejects_iff g hg w hw, ?_⟩
    have hcall := RangeGenerator.basic_call_single g hg w hw
    constructor
    · exact hcall.1
    · intro h
      by_contra hr
      have hr2 : g.rejects w = false := by simpa using hr
      obtain ⟨g1, h4⟩ := hcall.2 hr2
      rw [h4] at h
      cases h
  · intro f hf
    simp only [RangeGenerator.isFirstFraction, decide_eq_true_eq]
    omega
  · have hsum := Finset.filter_card_add_filter_neg_card_eq_card (s := Finset.range (2 ^ 32))
      (fun w => g.rejects w = true)
    rw [hcard, Finset.card_range] at hsum
    omega

/-- Witness for `basic_rejection_count`: a fresh generator of range 10, which
rejects exactly 6 words. -/
theorem basic_rejection_count_witness :
    (RangeGenerator.mk 10 UINT_MAX).Valid ∧
    ((Finset.range (2 ^ 32)).filter
      (fun w => (RangeGenerator.mk 10 UINT_MAX).rejects w = true)).card = 2 ^ 32 % 10 :=
  ⟨by decide, (basic_rejection_count ⟨10, UINT_MAX⟩ (by decide)).2.2.1⟩

/-! ## Infinite-precision generator -/

theorem pow32_succ (n : Nat) : 2 ^ (32 * (n + 1)) = 2 ^ 32 * 2 ^ (32 * n) := by
  rw [Nat.mul_succ, Nat.pow_add, Nat.mul_comm]

theorem wordsValue_lt (ws : List Nat) (h : ∀ w ∈ ws, w < 2 ^ 32) :
    wordsValue ws < 2 ^ (32 * ws.length) := by
  induction ws with
  | nil => simp [wordsValue]
  | cons w ws ih =>
    have hw : w < 2 ^ 32 := h w (List.mem_cons_self _ _)
    have ih2 := ih (fun x hx => h x (List.mem_cons_of_mem _ hx))
    have hm : w * 2 ^ (32 * ws.length) ≤ 4294967295 * 2 ^ (32 * ws.length) :=
      Nat.mul_le_mul_right _ (by omega)
    simp only [wordsValue, List.length_cons]
    rw [pow32_succ]
    omega

theorem wordsValue_append (a b : List Nat) :
    wordsValue (a ++ b) = wordsValue a * 2 ^ (32 * b.length) + wordsValue b := by
  induction a with
  | nil => simp [wordsValue]
  | cons w ws ih =>
    have hlen : (ws ++ b).length = ws.length + b.length := List.length_append _ _
    have hpow : 2 ^ (32 * (ws.length + b.length))
        = 2 ^ (32 * ws.length) * 2 ^ (32 * b.length) := by
      rw [Nat.mul_add, Nat.pow_add]
    show w * 2 ^ (32 * (ws ++ b).length) + wordsValue (ws ++ b)
      = (w * 2 ^ (32 * ws.length) + wordsValue ws) * 2 ^ (32 * b.length) + wordsValue b
    rw [ih, hlen, hpow]
    ring

theorem wordsValue_single (w : Nat) : wordsValue [w] = w := by
  simp [wordsValue]

theorem RangeGeneratorInfinite.carry_spec (R : Nat) (h1 : 1 ≤ R) (hR : R < 2 ^ 32)
    (script : List Nat) :
    ∀ fprev c rest, fprev < 2 ^ 32 → (∀ w ∈ script, w < 2 ^ 32) →
      RangeGeneratorInfinite.carry ⟨R⟩ fprev script = .ok (c, rest) →
      ∃ ws, script = ws ++ rest ∧ c ≤ 1 ∧
        c * 2 ^ (32 * (ws.length + 1)) ≤ fprev * 2 ^ (32 * ws.length) + R * wordsValue ws ∧
        fprev * 2 ^ (32 * ws.length) + R * wordsValue ws + R
          ≤ c * 2 ^ (32 * (ws.length + 1)) + 2 ^ (32 * (ws.length + 1)) := by
  have hnil : ∀ fprev : Nat, R + fprev < 2 ^ 32 →
      0 * 2 ^ (32 * (([] : List Nat).length + 1))
          ≤ fprev * 2 ^ (32 * ([] : List Nat).length) + R * wordsValue [] ∧
        fprev * 2 ^ (32 * ([] : List Nat).length) + R * wordsValue [] + R
          ≤ 0 * 2 ^ (32 * (([] : List Nat).length + 1))
            + 2 ^ (32 * (([] : List Nat).length + 1)) := by
    intro fprev h
    simp only [List.length_nil, wordsValue, Nat.mul_zero, Nat.pow_zero, Nat.mul_one,
      Nat.zero_add, Nat.add_zero, Nat.zero_mul]
    omega
  induction script with
  | nil =>
    intro fprev c rest hf _ h
    rw [RangeGeneratorInfinite.carry] at h
    by_cases hc : (R + fprev) % 2 ^ 32 < fprev
    · rw [if_pos hc] at h
      cases h
    · rw [if_neg hc] at h
      cases h
      exact ⟨[], rfl, by omega, hnil fprev (by omega)⟩
  | cons w tail ih =>
    intro fprev c rest hf hs h
    have hw : w < 2 ^ 32 := hs w (List.mem_cons_self _ _)
    have htail : ∀ x ∈ tail, x < 2 ^ 32 := fun x hx => hs x (List.mem_cons_of_mem _ hx)
    rw [RangeGeneratorInfinite.carry] at h
    by_cases hc : (R + fprev) % 2 ^ 32 < fprev
    · rw [if_pos hc] at h
      simp only [FixedPoint.product_floor w R hw hR,
        FixedPoint.product_fraction w R hw hR] at h
      have hP := word_mul_le w R hw
      have hcomm : R * w = w * R := Nat.mul_comm _ _
      by_cases hwrap : (w * R / 2 ^ 32 + fprev) % 2 ^ 32 < fprev
      · rw [if_pos hwrap] at h
        cases h
        refine ⟨[w], rfl, by omega, ?_, ?_⟩ <;>
        · simp only [List.length_cons, List.length_nil, wordsValue_single, Nat.zero_add,
            Nat.one_mul, Nat.mul_one]
          omega
      · rw [if_neg hwrap] at h
        by_cases htie : (w * R / 2 ^ 32 + fprev) % 2 ^ 32 = 4294967295
        · rw [if_pos htie] at h
          obtain ⟨ws, hsplit, hc1, hlo, hhi⟩ :=
            ih (w * R % 2 ^ 32) c rest (Nat.mod_lt _ (Nat.two_pow_pos 32)) htail h
          have hE := pow32_succ ws.length
          have hE2 := pow32_succ (ws.length + 1)
          have hkey : fprev * 2 ^ (32 * (ws.length + 1))
                + R * (w * 2 ^ (32 * ws.length) + wordsValue ws)
              = (w * R / 2 ^ 32 + fprev) * 2 ^ (32 * (ws.length + 1))
                + (w * R % 2 ^ 32 * 2 ^ (32 * ws.length) + R * wordsValue ws) := by
            have hdm : w * R = 2 ^ 32 * (w * R / 2 ^ 32) + w * R % 2 ^ 32 :=
              (Nat.div_add_mod _ _).symm
            have hexp : R * (w * 2 ^ (32 * ws.length) + wordsValue ws)
                = (w * R) * 2 ^ (32 * ws.length) + R * wordsValue ws := by ring
            rw [hexp, hE]
            nth_rewrite 1 [hdm]
            ring
          have hsum : w * R / 2 ^ 32 + fprev = 4294967295 := by omega
          rw [hsum] at hkey
          have hc01 : c = 0 ∨ c = 1 := by omega
          refine ⟨w :: ws, by rw [hsplit]; rfl, hc1, ?_, ?_⟩ <;>
          · simp only [List.length_cons, wordsValue]
            rcases hc01 with rfl | rfl
            · simp only [Nat.zero_mul, Nat.zero_add] at hlo hhi ⊢
              omega
            · simp only [Nat.one_mul] at hlo hhi ⊢
              omega
        · rw [if_neg htie] at h
          cases h
          refine ⟨[w], rfl, by omega, ?_, ?_⟩ <;>
          · simp only [List.length_cons, List.length_nil, wordsValue_single, Nat.zero_add,
              Nat.zero_mul, Nat.mul_one]
            omega
    · rw [if_neg hc] at h
      cases h
      exact ⟨[], rfl, by omega, hnil fprev (by omega)⟩

theorem RangeGeneratorInfinite.call_spec (R : Nat) (h1 : 1 ≤ R) (hR : R < 2 ^ 32)
    (script : List Nat) (hs : ∀ w ∈ script, w < 2 ^ 32) (v : Nat) (rest : List Nat)
    (h : RangeGeneratorInfinite.call ⟨R⟩ script = .ok (v, rest)) :
    ∃ w ws c, script = w :: (ws ++ rest) ∧
      RangeGeneratorInfinite.carry ⟨R⟩ ((FixedPoint.new.setFraction w).mul R).fraction
        (ws ++ rest) = .ok (c, rest) ∧
      (c = 0 ∨ c = 1) ∧
      ((FixedPoint.new.setFraction w).mul R).floor = w * R / 2 ^ 32 ∧
      w * R / 2 ^ 32 + c < R ∧
      v = w * R / 2 ^ 32 + c ∧
      v * 2 ^ (32 * (ws.length + 1)) ≤ R * wordsValue (w :: ws) ∧
      R * wordsValue (w :: ws) + R
        ≤ v * 2 ^ (32 * (ws.length + 1)) + 2 ^ (32 * (ws.length + 1)) := by
  cases script with
  | nil => rw [RangeGeneratorInfinite.call] at h; cases h
  | cons w tail =>
    have hw : w < 2 ^ 32 := hs w (List.mem_cons_self _ _)
    have htail : ∀ x ∈ tail, x < 2 ^ 32 := fun x hx => hs x (List.mem_cons_of_mem _ hx)
    have hfl := FixedPoint.product_floor w R hw hR
    have hfr := FixedPoint.product_fraction w R hw hR
    rw [RangeGeneratorInfinite.call] at h
    simp only [] at h
    cases hcar : RangeGeneratorInfinite.carry ⟨R⟩
        ((FixedPoint.new.setFraction w).mul R).fraction tail with
    | error e => rw [hcar] at h; cases h
    | ok p =>
      obtain ⟨c, rest1⟩ := p
      rw [hcar] at h
      simp only [Except.ok.injEq, Prod.mk.injEq] at h
      obtain ⟨hv, hrest⟩ := h
      subst hrest
      have hfrlt : ((FixedPoint.new.setFraction w).mul R).fraction < 2 ^ 32 := by
        rw [hfr]; exact Nat.mod_lt _ (Nat.two_pow_pos 32)
      obtain ⟨ws, hsplit, hc1, hlo, hhi⟩ :=
        RangeGeneratorInfinite.carry_spec R h1 hR tail _ c rest1 hfrlt htail hcar
      rw [hfr] at hlo hhi
      rw [hfl] at hv
      have hP := word_mul_le w R hw
      have hE := pow32_succ ws.length
      have hdm : w * R = 2 ^ 32 * (w * R / 2 ^ 32) + w * R % 2 ^ 32 :=
        (Nat.div_add_mod _ _).symm
      have hkey : R * wordsValue (w :: ws)
          = (w * R / 2 ^ 32) * 2 ^ (32 * (ws.length + 1))
            + (w * R % 2 ^ 32 * 2 ^ (32 * ws.length) + R * wordsValue ws) := by
        have hexp : R * wordsValue (w :: ws)
            = (w * R) * 2 ^ (32 * ws.length) + R * wordsValue ws := by
          simp only [wordsValue]; ring
        rw [hexp, hE]
        nth_rewrite 1 [hdm]
        ring
      have hc01 : c = 0 ∨ c = 1 := by omega
      have hWlt := wordsValue_lt (w :: ws) (by
        intro x hx
        apply hs x
        rw [hsplit]
        rcases List.mem_cons.mp hx with rfl | hx
        · exact List.mem_cons_self _ _
        · exact List.mem_cons_of_mem _ (List.mem_append_left _ hx))
      have hRW : R * wordsValue (w :: ws) < R * 2 ^ (32 * (ws.length + 1)) :=
        Nat.mul_lt_mul_of_pos_left hWlt (by omega)
      have hvlt : w * R / 2 ^ 32 + c < R := by
        have hlt : (w * R / 2 ^ 32 + c) * 2 ^ (32 * (ws.length + 1))
            < R * 2 ^ (32 * (ws.length + 1)) := by
          rcases hc01 with rfl | rfl
          · simp only [Nat.zero_mul, Nat.add_zero] at hlo ⊢
            omega
          · simp only [Nat.one_mul] at hlo
            rw [Nat.add_mul, Nat.one_mul]
            omega
        exact Nat.lt_of_mul_lt_mul_right hlt
      have hv2 : v = w * R / 2 ^ 32 + c := by omega
      refine ⟨w, ws, c, by rw [hsplit], ?_, hc01, hfl, hvlt, hv2, ?_, ?_⟩
      · rw [← hsplit]; exact hcar
      · rw [hv2]
        rcases hc01 with rfl | rfl
        · simp only [Nat.zero_mul, Nat.add_zero] at hlo ⊢
          omega
        · simp only [Nat.one_mul] at hlo
          rw [Nat.add_mul, Nat.one_mul]
          omega
      · rw [hv2]
        rcases hc01 with rfl | rfl
        · simp only [Nat.zero_mul, Nat.add_zero, Nat.zero_add] at hhi ⊢
          omega
        · simp only [Nat.one_mul] at hhi
          rw [Nat.add_mul, Nat.one_mul]
          omega

/-- C2. The infinite-precision generator computes the exact integer part: for a
range `R` with `1 <= R < 2^32` and a script of 32-bit words on which
`operator()` returns `v` leaving `rest` unread, the script is `ws ++ rest` for
the consumed words `ws` (at least one), `v = floor(R * W / 2^(32k))` where
`k` is the number of consumed words and `W` the number they write in base
`2^32`, and for every continuation `ext` of the consumed words the integer
part of the longer product is still `v`. -/
theorem infinite_exact_integer_part (R : Nat) (h1 : 1 ≤ R) (hR : R < 2 ^ 32)
    (script : List Nat) (hs : ∀ w ∈ script, w < 2 ^ 32) (v : Nat) (rest : List Nat)
    (h : RangeGeneratorInfinite.call ⟨R⟩ script = .ok (v, rest)) :
    ∃ ws, script = ws ++ rest ∧ 1 ≤ ws.length ∧
      v = R * wordsValue ws / 2 ^ (32 * ws.length) ∧
      ∀ ext : List Nat, (∀ w ∈ ext, w < 2 ^ 32) →
        R * wordsValue (ws ++ ext) / 2 ^ (32 * (ws.length + ext.length)) = v := by
  obtain ⟨w, ws, c, hsplit, _, _, _, _, _, hlo, hhi⟩ :=
    RangeGeneratorInfinite.call_spec R h1 hR script hs v rest h
  refine ⟨w :: ws, by rw [hsplit]; rfl, by simp, ?_, ?_⟩
  · symm
    apply Nat.div_eq_of_lt_le
    · exact hlo
    · rw [Nat.add_mul, Nat.one_mul]
      simp only [List.length_cons]
      omega
  · intro ext hext
    have hEv := wordsValue_lt ext hext
    have happ := wordsValue_append (w :: ws) ext
    have hpow : 2 ^ (32 * ((w :: ws).length + ext.length))
        = 2 ^ (32 * (ws.length + 1)) * 2 ^ (32 * ext.length) := by
      rw [List.length_cons, Nat.mul_add, Nat.pow_add]
    rw [happ, hpow]
    have hR1 : R * wordsValue ext < R * 2 ^ (32 * ext.length) :=
      Nat.mul_lt_mul_of_pos_left hEv (by omega)
    have hA := Nat.mul_le_mul_right (2 ^ (32 * ext.length)) hlo
    have hB := Nat.mul_le_mul_right (2 ^ (32 * ext.length)) hhi
    apply Nat.div_eq_of_lt_le
    · nlinarith [hA, hB, hR1]
    · nlinarith [hA, hB, hR1]

/-- Witness for `infinite_exact_integer_part`: range `0xFFFFFFFF` on the script
`[1, 1, 2]`, which returns 1 after consuming all three words. -/
theorem infinite_exact_integer_part_witness :
    RangeGeneratorInfinite.call ⟨4294967295⟩ [1, 1, 2] = .ok (1, []) ∧
    ∃ ws, [1, 1, 2] = ws ++ [] ∧ 1 ≤ ws.length ∧
      1 = 4294967295 * wordsValue ws / 2 ^ (32 * ws.length) ∧
      ∀ ext : List Nat, (∀ w ∈ ext, w < 2 ^ 32) →
        4294967295 * wordsValue (ws ++ ext) / 2 ^ (32 * (ws.length + ext.length)) = 1 :=
  ⟨by decide, infinite_exact_integer_part 4294967295 (by decide) (by decide) [1, 1, 2]
    (by decide) 1 [] (by decide)⟩

/-- C6. Range property of the infinite-precision generator: for a range `R`
with `2 <= R < 2^32` and a script of 32-bit words on which `operator()`
returns `v`, `v < R`; the value is `floor(x) + carry` with `carry` 0 or 1, the
carry is 1 only when `floor(x) <= R - 2`, and the 32-bit addition does not
wrap. -/
theorem infinite_range_property (R : Nat) (h2 : 2 ≤ R) (hR : R < 2 ^ 32)
    (script : List Nat) (hs : ∀ w ∈ script, w < 2 ^ 32) (v : Nat) (rest : List Nat)
    (h : RangeGeneratorInfinite.call ⟨R⟩ script = .ok (v, rest)) :
    v < R ∧
    ∃ w tail c, script = w :: tail ∧
      RangeGeneratorInfinite.carry ⟨R⟩ ((FixedPoint.new.setFraction w).mul R).fraction tail
        = .ok (c, rest) ∧
      (c = 0 ∨ c = 1) ∧
      v = ((FixedPoint.new.setFraction w).mul R).floor + c ∧
      ((FixedPoint.new.setFraction w).mul R).floor + c < 2 ^ 32 ∧
      (c = 1 → ((FixedPoint.new.setFraction w).mul R).floor ≤ R - 2) := by
  obtain ⟨w, ws, c, hsplit, hcar, hc01, hfl, hlt, hv, _, _⟩ :=
    RangeGeneratorInfinite.call_spec R (by omega) hR script hs v rest h
  refine ⟨by omega, w, ws ++ rest, c, hsplit, hcar, hc01, ?_, ?_, ?_⟩
  · rw [hfl]; exact hv
  · rw [hfl]; omega
  · intro hc; rw [hfl]; omega

/-- Witness for `infinite_range_property`: range `0xFFFFFFFF` on the script
`[1, 2]`, which returns 1 with a carry. -/
theorem infinite_range_property_witness :
    RangeGeneratorInfinite.call ⟨4294967295⟩ [1, 2] = .ok (1, []) ∧ 1 < 4294967295 :=
  ⟨by decide, (infinite_range_property 4294967295 (by decide) (by decide) [1, 2]
    (by decide) 1 [] (by decide)).1⟩

/-! ## Extended generator -/

theorem pair_product (w1 w2 R : Nat) :
    (w1 * 2 ^ 32 + w2) * R / 2 ^ 64 = (w1 * R + w2 * R / 2 ^ 32) / 2 ^ 32 ∧
    (w1 * 2 ^ 32 + w2) * R % 2 ^ 64
      = (w1 * R + w2 * R / 2 ^ 32) % 2 ^ 32 * 2 ^ 32 + w2 * R % 2 ^ 32 := by
  have hdm : w2 * R = 2 ^ 32 * (w2 * R / 2 ^ 32) + w2 * R % 2 ^ 32 :=
    (Nat.div_add_mod _ _).symm
  have hP : (w1 * 2 ^ 32 + w2) * R
      = (w1 * R + w2 * R / 2 ^ 32) * 2 ^ 32 + w2 * R % 2 ^ 32 := by
    have h : (w1 * 2 ^ 32 + w2) * R = w1 * R * 2 ^ 32 + w2 * R := by ring
    rw [h]
    nth_rewrite 1 [hdm]
    ring
  have hlt : w2 * R % 2 ^ 32 < 2 ^ 32 := Nat.mod_lt _ (Nat.two_pow_pos 32)
  rw [hP]
  constructor <;> omega

theorem pair_card_aux (M N : Nat) (hM : M = 2 ^ 32) (hN : N = 2 ^ 64) (Q : Nat → Prop)
    [DecidablePred Q] :
    ((Finset.range M ×ˢ Finset.range M).filter
      (fun p => Q (p.1 * M + p.2))).card = ((Finset.range N).filter Q).card := by
  apply Finset.card_bij (fun p _ => p.1 * M + p.2)
  · intro p hp
    simp only [Finset.mem_filter, Finset.mem_product, Finset.mem_range] at hp ⊢
    refine ⟨?_, hp.2⟩
    rw [hM] at hp ⊢
    rw [hN]
    omega
  · intro p hp q hq h
    simp only [Finset.mem_filter, Finset.mem_product, Finset.mem_range] at hp hq
    have h2 : p.1 * M + p.2 = q.1 * M + q.2 := h
    rw [hM] at h2 hp hq
    have e1 : p.1 = q.1 := by omega
    have e2 : p.2 = q.2 := by omega
    exact Prod.ext e1 e2
  · intro w hw
    simp only [Finset.mem_filter, Finset.mem_range] at hw
    have e : w / M * M + w % M = w := by rw [hM]; omega
    refine ⟨(w / M, w % M), ?_, e⟩
    simp only [Finset.mem_filter, Finset.mem_product, Finset.mem_range]
    rw [e]
    refine ⟨⟨?_, ?_⟩, hw.2⟩
    · rw [hM]; rw [hN] at hw; omega
    · rw [hM]; omega

theorem pair_filter_card_aux (M N : Nat) (hM : M = 2 ^ 32) (hN : N = 2 ^ 64)
    (A : Nat × Nat → Prop) [DecidablePred A] (Q : Nat → Prop) [DecidablePred Q]
    (h : ∀ w1 w2, w1 < 2 ^ 32 → w2 < 2 ^ 32 → (A (w1, w2) ↔ Q (w1 * 2 ^ 32 + w2))) :
    ((Finset.range M ×ˢ Finset.range M).filter A).card = ((Finset.range N).filter Q).card := by
  rw [← pair_card_aux M N hM hN Q]
  congr 1
  apply Finset.filter_congr
  intro p hp
  simp only [Finset.mem_product, Finset.mem_range] at hp
  rw [hM] at hp ⊢
  exact h p.1 p.2 hp.1 hp.2

theorem pair_filter_card (A : Nat × Nat → Prop) [DecidablePred A] (Q : Nat → Prop)
    [DecidablePred Q]
    (h : ∀ w1 w2, w1 < 2 ^ 32 → w2 < 2 ^ 32 → (A (w1, w2) ↔ Q (w1 * 2 ^ 32 + w2))) :
    ((Finset.range (2 ^ 32) ×ˢ Finset.range (2 ^ 32)).filter A).card
      = ((Finset.range (2 ^ 64)).filter Q).card :=
  pair_filter_card_aux (2 ^ 32) (2 ^ 64) rfl rfl A Q h

theorem RangeGeneratorExtended.ext_product_val (R w : Nat) (hR : R < 2 ^ 32)
    (hw : w < 2 ^ 32) : (RangeGeneratorExtended.product ⟨R⟩ w).val = w * R :=
  FixedPoint.product_val w R hw hR

theorem RangeGeneratorExtended.extend_val (R w1 w2 : Nat) (hR : R < 2 ^ 32)
    (hw1 : w1 < 2 ^ 32) (hw2 : w2 < 2 ^ 32) :
    (RangeGeneratorExtended.extend ⟨R⟩ (RangeGeneratorExtended.product ⟨R⟩ w1) w2)
      = (⟨w1 * R + w2 * R / 2 ^ 32⟩, ⟨w2 * R⟩) := by
  have hv1 := RangeGeneratorExtended.ext_product_val R w1 hR hw1
  have hfl := FixedPoint.product_floor w2 R hw2 hR
  have hv2 := FixedPoint.product_val w2 R hw2 hR
  have hP1 := word_mul_le w1 R hw1
  have hP2 := word_mul_le w2 R hw2
  have hnowrap : (w1 * R + w2 * R / 2 ^ 32) % 2 ^ 64 = w1 * R + w2 * R / 2 ^ 32 :=
    Nat.mod_eq_of_lt (by omega)
  simp only [RangeGeneratorExtended.extend, FixedPoint.addFraction, hv1, hfl, hnowrap]
  congr 1
  cases hx : (FixedPoint.new.setFraction w2).mul R with
  | mk val =>
    rw [hx] at hv2
    simp only at hv2
    rw [hv2]

theorem RangeGeneratorExtended.extraValueThreshold_ok (R : Nat) (h1 : 1 ≤ R)
    (hR : R < 2 ^ 32) :
    RangeGeneratorExtended.extraValueThreshold ⟨R⟩ = .ok (2 ^ 64 % R) := by
  have h0 : R ≠ 0 := by omega
  simp only [RangeGeneratorExtended.extraValueThreshold, h0, if_false]
  rw [neg64_mod R h1 hR]

theorem RangeGeneratorExtended.loopCondition_spec (R : Nat) (h1 : 1 ≤ R) (hR : R < 2 ^ 32)
    (x addend : FixedPoint) :
    RangeGeneratorExtended.loopCondition ⟨R⟩ x addend
      = .ok (decide (x.fraction = 0 ∧ addend.fraction < 2 ^ 64 % R)) := by
  have hT : 2 ^ 64 % R < R := Nat.mod_lt _ (by omega)
  have hthr := RangeGeneratorExtended.extraValueThreshold_ok R h1 hR
  rw [RangeGeneratorExtended.loopCondition]
  by_cases hx : x.fraction = 0
  · rw [if_pos hx, RangeGeneratorExtended.isRejectedValue,
      RangeGeneratorExtended.isFirstFraction]
    by_cases hf : addend.fraction < R
    · rw [decide_eq_true hf, if_pos rfl, RangeGeneratorExtended.isExtraValue, hthr]
      show Except.ok (decide (addend.fraction < 2 ^ 64 % R)) = _
      by_cases ht : addend.fraction < 2 ^ 64 % R
      · rw [decide_eq_true ht, decide_eq_true (⟨hx, ht⟩ : x.fraction = 0 ∧ _)]
      · rw [decide_eq_false ht, decide_eq_false (fun h => ht h.2)]
    · rw [decide_eq_false hf, if_neg (by simp)]
      have ht : ¬ addend.fraction < 2 ^ 64 % R := by omega
      rw [decide_eq_false (fun h => ht h.2)]
  · rw [if_neg hx, decide_eq_false (fun h => hx h.1)]

theorem pair_reject_iff (w1 w2 R : Nat) (h1 : 1 ≤ R) (hR : R < 2 ^ 32) :
    ((w1 * R + w2 * R / 2 ^ 32) % 2 ^ 32 = 0 ∧ w2 * R % 2 ^ 32 < 2 ^ 64 % R) ↔
      (w1 * 2 ^ 32 + w2) * R % 2 ^ 64 < 2 ^ 64 % R := by
  have hT : 2 ^ 64 % R < R := Nat.mod_lt _ (by omega)
  have hlt : w2 * R % 2 ^ 32 < 2 ^ 32 := Nat.mod_lt _ (Nat.two_pow_pos 32)
  rw [(pair_product w1 w2 R).2]
  constructor
  · rintro ⟨h0, h⟩
    rw [h0]
    omega
  · intro h
    constructor <;> omega

theorem RangeGeneratorExtended.canZero_false (R w1 w2 : Nat) (h1 : 1 ≤ R) (hR : R < 2 ^ 32)
    (hw1 : w1 < 2 ^ 32) (hw2 : w2 < 2 ^ 32)
    (hcz : RangeGeneratorExtended.canZero ⟨R⟩
      (RangeGeneratorExtended.product ⟨R⟩ w1).fraction = false) :
    (RangeGeneratorExtended.product ⟨R⟩ w1).fraction ≠ 0 ∧
    (w1 * R + w2 * R / 2 ^ 32) / 2 ^ 32 = w1 * R / 2 ^ 32 ∧
    (w1 * R + w2 * R / 2 ^ 32) % 2 ^ 32 ≠ 0 := by
  have hfr : (RangeGeneratorExtended.product ⟨R⟩ w1).fraction = w1 * R % 2 ^ 32 :=
    FixedPoint.product_fraction w1 R hw1 hR
  rw [hfr] at hcz ⊢
  have hP2 := word_mul_le w2 R hw2
  have hcz2 : ¬ (2 ^ 32 - w1 * R % 2 ^ 32) % 2 ^ 32 < R := by
    intro h
    rw [RangeGeneratorExtended.canZero, decide_eq_true h] at hcz
    cases hcz
  refine ⟨?_, ?_, ?_⟩ <;> omega

theorem RangeGeneratorExtended.iteration_drawn (R w1 w2 : Nat) (h1 : 1 ≤ R)
    (hR : R < 2 ^ 32) (hw1 : w1 < 2 ^ 32) (hw2 : w2 < 2 ^ 32) (addend : FixedPoint)
    (rest : List Nat)
    (hcz : RangeGeneratorExtended.canZero ⟨R⟩
      (RangeGeneratorExtended.product ⟨R⟩ w1).fraction = true) :
    RangeGeneratorExtended.iteration ⟨R⟩ addend (w1 :: w2 :: rest)
      = .ok (decide ((w1 * 2 ^ 32 + w2) * R % 2 ^ 64 < 2 ^ 64 % R),
          ⟨w1 * R + w2 * R / 2 ^ 32⟩, ⟨w2 * R⟩, rest) ∧
    (FixedPoint.mk (w1 * R + w2 * R / 2 ^ 32)).floor = (w1 * 2 ^ 32 + w2) * R / 2 ^ 64 := by
  have hP1 := word_mul_le w1 R hw1
  have hP2 := word_mul_le w2 R hw2
  constructor
  · simp only [RangeGeneratorExtended.iteration, hcz, if_true,
      RangeGeneratorExtended.extend_val R w1 w2 hR hw1 hw2,
      RangeGeneratorExtended.loopCondition_spec R h1 hR]
    have hiff := pair_reject_iff w1 w2 R h1 hR
    have hd : decide ((FixedPoint.mk (w1 * R + w2 * R / 2 ^ 32)).fraction = 0 ∧
          (FixedPoint.mk (w2 * R)).fraction < 2 ^ 64 % R)
        = decide ((w1 * 2 ^ 32 + w2) * R % 2 ^ 64 < 2 ^ 64 % R) :=
      decide_eq_decide.mpr hiff
    rw [hd]
  · rw [(pair_product w1 w2 R).1]
    show (w1 * R + w2 * R / 2 ^ 32) / 2 ^ 32 % 2 ^ 32 = _
    omega

theorem RangeGeneratorExtended.iteration_not_drawn (R w1 w2 : Nat) (h1 : 1 ≤ R)
    (hR : R < 2 ^ 32) (hw1 : w1 < 2 ^ 32) (hw2 : w2 < 2 ^ 32) (addend : FixedPoint)
    (rest : List Nat)
    (hcz : RangeGeneratorExtended.canZero ⟨R⟩
      (RangeGeneratorExtended.product ⟨R⟩ w1).fraction = false) :
    RangeGeneratorExtended.iteration ⟨R⟩ addend (w1 :: rest)
      = .ok (false, RangeGeneratorExtended.product ⟨R⟩ w1, addend, rest) ∧
    (RangeGeneratorExtended.product ⟨R⟩ w1).floor = (w1 * 2 ^ 32 + w2) * R / 2 ^ 64 ∧
    ¬ ((w1 * 2 ^ 32 + w2) * R % 2 ^ 64 < 2 ^ 64 % R) := by
  obtain ⟨hne, hfl, hfr⟩ := RangeGeneratorExtended.canZero_false R w1 w2 h1 hR hw1 hw2 hcz
  have hT : 2 ^ 64 % R < R := Nat.mod_lt _ (by omega)
  refine ⟨?_, ?_, ?_⟩
  · simp only [RangeGeneratorExtended.iteration, hcz, Bool.false_eq_true, if_false,
      RangeGeneratorExtended.loopCondition_spec R h1 hR]
    rw [decide_eq_false (fun h => hne h.1)]
  · rw [(pair_product w1 w2 R).1, hfl]
    exact FixedPoint.product_floor w1 R hw1 hR
  · rw [← pair_reject_iff w1 w2 R h1 hR]
    exact fun h => hfr h.1

theorem RangeGeneratorExtended.loop_step (g : RangeGeneratorExtended) (addend : FixedPoint)
    (script : List Nat) :
    g.loop addend script =
      match g.iteration addend script with
      | .error e => .error e
      | .ok (true, _, a, rest) => g.loop a rest
      | .ok (false, x, _, rest) => .ok (x.floor, rest) := by
  cases script with
  | nil => rfl
  | cons w1 rest =>
    by_cases hcz : g.canZero (g.product w1).fraction = true
    · cases rest with
      | nil => simp only [RangeGeneratorExtended.loop, RangeGeneratorExtended.iteration, hcz,
          if_true]
      | cons w2 rest2 =>
        simp only [RangeGeneratorExtended.loop, RangeGeneratorExtended.iteration, hcz, if_true]
        cases hl : g.loopCondition (g.extend (g.product w1) w2).1
            (g.extend (g.product w1) w2).2 with
        | error e => rfl
        | ok b => cases b <;> rfl
    · cases rest with
      | nil =>
        simp only [RangeGeneratorExtended.loop, RangeGeneratorExtended.iteration, hcz, if_false]
        cases hl : g.loopCondition (g.product w1) addend with
        | error e => rfl
        | ok b => cases b <;> rfl
      | cons w2 rest2 =>
        simp only [RangeGeneratorExtended.loop, RangeGeneratorExtended.iteration, hcz, if_false]
        cases hl : g.loopCondition (g.product w1) addend with
        | error e => rfl
        | ok b => cases b <;> rfl

theorem pair_floor_lt (w1 w2 R : Nat) (hw1 : w1 < 2 ^ 32) (hw2 : w2 < 2 ^ 32)
    (hRpos : 0 < R) : (w1 * 2 ^ 32 + w2) * R / 2 ^ 64 < R := by
  apply Nat.div_lt_of_lt_mul
  exact Nat.mul_lt_mul_of_pos_right (by omega) hRpos

theorem RangeGeneratorExtended.attempt_spec (R w1 w2 : Nat) (h1 : 1 ≤ R)
    (hR : R < 2 ^ 32) (hw1 : w1 < 2 ^ 32) (hw2 : w2 < 2 ^ 32) (addend : FixedPoint) :
    ∃ x a rest, RangeGeneratorExtended.iteration ⟨R⟩ addend [w1, w2]
        = .ok (decide ((w1 * 2 ^ 32 + w2) * R % 2 ^ 64 < 2 ^ 64 % R), x, a, rest) ∧
      x.floor = (w1 * 2 ^ 32 + w2) * R / 2 ^ 64 := by
  by_cases hcz : RangeGeneratorExtended.canZero ⟨R⟩
      (RangeGeneratorExtended.product ⟨R⟩ w1).fraction = true
  · obtain ⟨hit, hfl⟩ :=
      RangeGeneratorExtended.iteration_drawn R w1 w2 h1 hR hw1 hw2 addend [] hcz
    exact ⟨_, _, _, hit, hfl⟩
  · have hcz2 : RangeGeneratorExtended.canZero ⟨R⟩
        (RangeGeneratorExtended.product ⟨R⟩ w1).fraction = false := by simpa using hcz
    obtain ⟨hit, hfl, hnr⟩ :=
      RangeGeneratorExtended.iteration_not_drawn R w1 w2 h1 hR hw1 hw2 addend [w2] hcz2
    rw [← decide_eq_false hnr] at hit
    exact ⟨_, _, _, hit, hfl⟩

theorem RangeGeneratorExtended.ext_rejects_iff (R w1 w2 : Nat) (h1 : 1 ≤ R)
    (hR : R < 2 ^ 32) (hw1 : w1 < 2 ^ 32) (hw2 : w2 < 2 ^ 32) (addend : FixedPoint) :
    RangeGeneratorExtended.rejects ⟨R⟩ addend w1 w2 = true ↔
      (w1 * 2 ^ 32 + w2) * R % 2 ^ 64 < 2 ^ 64 % R := by
  obtain ⟨x, a, rest, hit, _⟩ :=
    RangeGeneratorExtended.attempt_spec R w1 w2 h1 hR hw1 hw2 addend
  rw [RangeGeneratorExtended.rejects, hit]
  exact decide_eq_true_iff

theorem RangeGeneratorExtended.ext_acceptsWith_iff (R w1 w2 v : Nat) (h1 : 1 ≤ R)
    (hR : R < 2 ^ 32) (hw1 : w1 < 2 ^ 32) (hw2 : w2 < 2 ^ 32) (addend : FixedPoint) :
    RangeGeneratorExtended.acceptsWith ⟨R⟩ addend w1 w2 v = true ↔
      ((w1 * 2 ^ 32 + w2) * R / 2 ^ 64 = v ∧
        ¬ ((w1 * 2 ^ 32 + w2) * R % 2 ^ 64 < 2 ^ 64 % R)) := by
  obtain ⟨x, a, rest, hit, hfl⟩ :=
    RangeGeneratorExtended.attempt_spec R w1 w2 h1 hR hw1 hw2 addend
  rw [RangeGeneratorExtended.acceptsWith, hit, ← hfl]
  by_cases hb : (w1 * 2 ^ 32 + w2) * R % 2 ^ 64 < 2 ^ 64 % R
  · rw [decide_eq_true hb]
    exact ⟨fun h => (by cases h), fun h => absurd hb h.2⟩
  · rw [decide_eq_false hb]
    exact ⟨fun h => ⟨of_decide_eq_true h, hb⟩, fun h => decide_eq_true h.1⟩

/-- C3. One attempt of the extended generator equals the full 64-bit-fraction
computation: for `1 <= R < 2^32` and 32-bit words `w1`, `w2`, with
`P = (w1 * 2^32 + w2) * R`, the threshold is `2^64 mod R`; an iteration that
draws the second word ends with `x.floor() = floor(P / 2^64)` and loops again
exactly when `P mod 2^64 < 2^64 mod R`; and an iteration that does not draw a
second word leaves `addend` and the script after `w1` untouched and satisfies
the same two statements for this (arbitrary) `w2`. -/
theorem extended_iteration_exact (R w1 w2 : Nat) (h1 : 1 ≤ R) (hR : R < 2 ^ 32)
    (hw1 : w1 < 2 ^ 32) (hw2 : w2 < 2 ^ 32) (addend : FixedPoint) (rest : List Nat) :
    RangeGeneratorExtended.extraValueThreshold ⟨R⟩ = .ok (2 ^ 64 % R) ∧
    (RangeGeneratorExtended.canZero ⟨R⟩
        (RangeGeneratorExtended.product ⟨R⟩ w1).fraction = true →
      ∃ x a, RangeGeneratorExtended.iteration ⟨R⟩ addend (w1 :: w2 :: rest)
          = .ok (decide ((w1 * 2 ^ 32 + w2) * R % 2 ^ 64 < 2 ^ 64 % R), x, a, rest) ∧
        x.floor = (w1 * 2 ^ 32 + w2) * R / 2 ^ 64) ∧
    (RangeGeneratorExtended.canZero ⟨R⟩
        (RangeGeneratorExtended.product ⟨R⟩ w1).fraction = false →
      ∃ x, RangeGeneratorExtended.iteration ⟨R⟩ addend (w1 :: rest)
          = .ok (decide ((w1 * 2 ^ 32 + w2) * R % 2 ^ 64 < 2 ^ 64 % R), x, addend, rest) ∧
        x.floor = (w1 * 2 ^ 32 + w2) * R / 2 ^ 64) := by
  refine ⟨RangeGeneratorExtended.extraValueThreshold_ok R h1 hR, ?_, ?_⟩
  · intro hcz
    obtain ⟨hit, hfl⟩ :=
      RangeGeneratorExtended.iteration_drawn R w1 w2 h1 hR hw1 hw2 addend rest hcz
    exact ⟨_, _, hit, hfl⟩
  · intro hcz
    obtain ⟨hit, hfl, hnr⟩ :=
      RangeGeneratorExtended.iteration_not_drawn R w1 w2 h1 hR hw1 hw2 addend rest hcz
    rw [← decide_eq_false hnr] at hit
    exact ⟨_, hit, hfl⟩

/-- Witness for `extended_iteration_exact`: range 10 with the words 0 and 0,
whose second word is drawn and whose attempt is rejected. -/
theorem extended_iteration_exact_witness :
    RangeGeneratorExtended.canZero ⟨10⟩
        (RangeGeneratorExtended.product ⟨10⟩ 0).fraction = true ∧
    ∃ x a, RangeGeneratorExtended.iteration ⟨10⟩ FixedPoint.new (0 :: 0 :: [0, 2])
        = .ok (decide ((0 * 2 ^ 32 + 0) * 10 % 2 ^ 64 < 2 ^ 64 % 10), x, a, [0, 2]) ∧
      x.floor = (0 * 2 ^ 32 + 0) * 10 / 2 ^ 64 :=
  ⟨by decide, (extended_iteration_exact 10 0 0 (by decide) (by decide) (by decide)
    (by decide) FixedPoint.new [0, 2]).2.1 (by decide)⟩

/-- C4. The extended generator is exactly unbiased over word pairs: for
`2 <= R < 2^32`, every `v < R` and whatever value `addend` holds on entry to
the attempt, exactly `floor(2^64 / R)` of the `2^64` pairs `(w1, w2)` of 32-bit
words are accepted with result `v`, and exactly `2^64 mod R` pairs are
rejected. -/
theorem extended_unbiased (R v : Nat) (h2 : 2 ≤ R) (hR : R < 2 ^ 32) (hv : v < R)
    (addend : FixedPoint) :
    ((Finset.range (2 ^ 32) ×ˢ Finset.range (2 ^ 32)).filter
      (fun p => RangeGeneratorExtended.acceptsWith ⟨R⟩ addend p.1 p.2 v = true)).card
      = 2 ^ 64 / R ∧
    ((Finset.range (2 ^ 32) ×ˢ Finset.range (2 ^ 32)).filter
      (fun p => RangeGeneratorExtended.rejects ⟨R⟩ addend p.1 p.2 = true)).card
      = 2 ^ 64 % R := by
  have hRpos : 0 < R := by omega
  constructor
  · have hcount := accepted_card (2 ^ 64) R v (Nat.two_pow_pos 64) hRpos hv
    have hpair := pair_filter_card
      (fun p => RangeGeneratorExtended.acceptsWith ⟨R⟩ addend p.1 p.2 v = true)
      (fun w => w * R / 2 ^ 64 = v ∧ ¬ (w * R % 2 ^ 64 < 2 ^ 64 % R))
      (fun w1 w2 hw1 hw2 =>
        RangeGeneratorExtended.ext_acceptsWith_iff R w1 w2 v (by omega) hR hw1 hw2 addend)
    exact hpair.trans hcount
  · have hcount := rejected_card (2 ^ 64) R (Nat.two_pow_pos 64) hRpos
    have hpair := pair_filter_card
      (fun p => RangeGeneratorExtended.rejects ⟨R⟩ addend p.1 p.2 = true)
      (fun w => w * R % 2 ^ 64 < 2 ^ 64 % R)
      (fun w1 w2 hw1 hw2 =>
        RangeGeneratorExtended.ext_rejects_iff R w1 w2 (by omega) hR hw1 hw2 addend)
    exact hpair.trans hcount

/-- Witness for `extended_unbiased`: range 10 and `v = 3`, from the initial
zero `addend`. -/
theorem extended_unbiased_witness :
    ((Finset.range (2 ^ 32) ×ˢ Finset.range (2 ^ 32)).filter
      (fun p => RangeGeneratorExtended.acceptsWith ⟨10⟩ FixedPoint.new p.1 p.2 3 = true)).card
      = 2 ^ 64 / 10 ∧
    ((Finset.range (2 ^ 32) ×ˢ Finset.range (2 ^ 32)).filter
      (fun p => RangeGeneratorExtended.rejects ⟨10⟩ FixedPoint.new p.1 p.2 = true)).card
      = 2 ^ 64 % 10 :=
  extended_unbiased 10 3 (by decide) (by decide) (by decide) FixedPoint.new

/-! ## Range property of the basic and extended generators -/

theorem RangeGenerator.extraValueThreshold_range (g : RangeGenerator) (t : Nat)
    (g1 : RangeGenerator) (h : g.extraValueThreshold = .ok (t, g1)) : g1.range = g.range := by
  rw [RangeGenerator.extraValueThreshold] at h
  by_cases hs : g._extraValueThreshold = UINT_MAX
  · rw [if_pos hs] at h
    by_cases h0 : g.range = 0
    · rw [if_pos h0] at h; cases h
    · rw [if_neg h0] at h
      simp only [Except.ok.injEq, Prod.mk.injEq] at h
      rw [← h.2]
  · rw [if_neg hs] at h
    simp only [Except.ok.injEq, Prod.mk.injEq] at h
    rw [← h.2]

theorem RangeGenerator.isRejectedValue_range (g : RangeGenerator) (f : Nat) (b : Bool)
    (g1 : RangeGenerator) (h : g.isRejectedValue f = .ok (b, g1)) : g1.range = g.range := by
  rw [RangeGenerator.isRejectedValue] at h
  by_cases hf : g.isFirstFraction f = true
  · rw [if_pos hf, RangeGenerator.isExtraValue] at h
    cases hthr : g.extraValueThreshold with
    | error e => rw [hthr] at h; cases h
    | ok p =>
      obtain ⟨t, g2⟩ := p
      rw [hthr] at h
      simp only [Except.ok.injEq, Prod.mk.injEq] at h
      rw [← h.2]
      exact RangeGenerator.extraValueThreshold_range g t g2 hthr
  · rw [if_neg hf] at h
    simp only [Except.ok.injEq, Prod.mk.injEq] at h
    rw [← h.2]

theorem RangeGenerator.call_lt_range (script : List Nat) (hs : ∀ w ∈ script, w < 2 ^ 32) :
    ∀ (g : RangeGenerator), 0 < g.range → g.range < 2 ^ 32 →
      ∀ v rest g1, g.call script = .ok (v, rest, g1) → v < g.range := by
  induction script with
  | nil => intro g _ _ v rest g1 h; rw [RangeGenerator.call] at h; cases h
  | cons w ws ih =>
    intro g hpos hR v rest g1 h
    have hw : w < 2 ^ 32 := hs w (List.mem_cons_self _ _)
    have hws : ∀ x ∈ ws, x < 2 ^ 32 := fun x hx => hs x (List.mem_cons_of_mem _ hx)
    rw [RangeGenerator.call] at h
    cases hrej : g.isRejectedValue (g.product w).fraction with
    | error e => rw [hrej] at h; cases h
    | ok p =>
      obtain ⟨b, g2⟩ := p
      have hrange := RangeGenerator.isRejectedValue_range g _ b g2 hrej
      rw [hrej] at h
      cases b with
      | true =>
        have hlt := ih hws g2 (by omega) (by omega) v rest g1 h
        omega
      | false =>
        simp only [Except.ok.injEq, Prod.mk.injEq] at h
        rw [← h.1]
        have hfl : (g.product w).floor = w * g.range / 2 ^ 32 :=
          FixedPoint.product_floor w g.range hw hR
        have hP := word_mul_le w g.range hw
        rw [hfl]
        omega

theorem RangeGeneratorExtended.loop_lt_range (R : Nat) (h1 : 1 ≤ R) (hR : R < 2 ^ 32) :
    ∀ (n : Nat) (script : List Nat), script.length ≤ n → (∀ w ∈ script, w < 2 ^ 32) →
      ∀ addend v rest, RangeGeneratorExtended.loop ⟨R⟩ addend script = .ok (v, rest) →
        v < R := by
  intro n
  induction n with
  | zero =>
    intro script hlen _ addend v rest h
    have hnil : script = [] := List.length_eq_zero.mp (by omega)
    subst hnil
    rw [RangeGeneratorExtended.loop] at h
    cases h
  | succ n ih =>
    intro script hlen hs addend v rest h
    cases script with
    | nil => rw [RangeGeneratorExtended.loop] at h; cases h
    | cons w1 rest0 =>
      have hw1 : w1 < 2 ^ 32 := hs w1 (List.mem_cons_self _ _)
      have hs0 : ∀ x ∈ rest0, x < 2 ^ 32 := fun x hx => hs x (List.mem_cons_of_mem _ hx)
      simp only [List.length_cons] at hlen
      rw [RangeGeneratorExtended.loop_step] at h
      by_cases hcz : RangeGeneratorExtended.canZero ⟨R⟩
          (RangeGeneratorExtended.product ⟨R⟩ w1).fraction = true
      · cases rest0 with
        | nil =>
          simp only [RangeGeneratorExtended.iteration, hcz, if_true] at h
          cases h
        | cons w2 rest2 =>
          have hw2 : w2 < 2 ^ 32 := hs0 w2 (List.mem_cons_self _ _)
          have hs2 : ∀ x ∈ rest2, x < 2 ^ 32 :=
            fun x hx => hs0 x (List.mem_cons_of_mem _ hx)
          simp only [List.length_cons] at hlen
          obtain ⟨hit, hfl⟩ :=
            RangeGeneratorExtended.iteration_drawn R w1 w2 h1 hR hw1 hw2 addend rest2 hcz
          rw [hit] at h
          by_cases hb : (w1 * 2 ^ 32 + w2) * R % 2 ^ 64 < 2 ^ 64 % R
          · rw [decide_eq_true hb] at h
            exact ih rest2 (by omega) hs2 _ v rest h
          · rw [decide_eq_false hb] at h
            simp only [Except.ok.injEq, Prod.mk.injEq] at h
            rw [← h.1, hfl]
            exact pair_floor_lt w1 w2 R hw1 hw2 (by omega)
      · have hcz2 : RangeGeneratorExtended.canZero ⟨R⟩
            (RangeGeneratorExtended.product ⟨R⟩ w1).fraction = false := by simpa using hcz
        obtain ⟨hit, hfl, _⟩ :=
          RangeGeneratorExtended.iteration_not_drawn R w1 0 h1 hR hw1 (by omega) addend
            rest0 hcz2
        rw [hit] at h
        simp only [Except.ok.injEq, Prod.mk.injEq] at h
        rw [← h.1, hfl]
        exact pair_floor_lt w1 0 R hw1 (by omega) (by omega)

/-- C5. Range property of the basic and extended generators: for a range `R`
with `2 <= R < 2^32` and any script of 32-bit words, whenever
`RangeGenerator::operator()` (from any state of its cache field) or
`RangeGeneratorExtended::operator()` returns a value `v`, `v < R`. For the
extended generator the returned value is the integer part of `x` after the
second word's integer part was added, carry included. -/
theorem basic_extended_range_property (R : Nat) (h2 : 2 ≤ R) (hR : R < 2 ^ 32)
    (script : List Nat) (hs : ∀ w ∈ script, w < 2 ^ 32) :
    (∀ cache v rest g1,
      RangeGenerator.call ⟨R, cache⟩ script = .ok (v, rest, g1) → v < R) ∧
    (∀ v rest, RangeGeneratorExtended.call ⟨R⟩ script = .ok (v, rest) → v < R) := by
  constructor
  · intro cache v rest g1 h
    exact RangeGenerator.call_lt_range script hs ⟨R, cache⟩ (by show 0 < R; omega) hR
      v rest g1 h
  · intro v rest h
    exact RangeGeneratorExtended.loop_lt_range R (by omega) hR script.length script
      (Nat.le_refl _) hs FixedPoint.new v rest h

/-- Witness for `basic_extended_range_property`: range 10 on the script
`[1288490188, 4294967295]`; the basic generator returns 2 after one word, and
the extended generator draws both words, the second one carrying into the
integer part, and returns 3. -/
theorem basic_extended_range_property_witness :
    RangeGenerator.call ⟨10, UINT_MAX⟩ [1288490188, 4294967295]
      = .ok (2, [4294967295], ⟨10, UINT_MAX⟩) ∧
    RangeGeneratorExtended.call ⟨10⟩ [1288490188, 4294967295] = .ok (3, []) ∧
    2 < 10 ∧ 3 < 10 :=
  ⟨by decide, by decide,
    (basic_extended_range_property 10 (by decide) (by decide) [1288490188, 4294967295]
      (by decide)).1 UINT_MAX 2 [4294967295] ⟨10, UINT_MAX⟩ (by decide),
    (basic_extended_range_property 10 (by decide) (by decide) [1288490188, 4294967295]
      (by decide)).2 3 [] (by decide)⟩

/-! ## Scripted traces -/

/-- C11. The extended generator traces asserted by the test suite: range 10 on
the script `[0, 0, 0, 2]` returns 0 and leaves the script empty; range
`0xFFFFFFFF` on `[0xFFFFFFFE, 1]` returns `0xFFFFFFFD` and leaves the script
empty; range 10 on `[floor(0xFFFFFFFF / 10) * 3 + 1, 0]` returns 2 and leaves
the script empty. -/
theorem extended_test_traces :
    RangeGeneratorExtended.call ⟨10⟩ [0, 0, 0, 2] = .ok (0, []) ∧
    RangeGeneratorExtended.call ⟨4294967295⟩ [4294967294, 1] = .ok (4294967293, []) ∧
    RangeGeneratorExtended.call ⟨10⟩ [UINT_MAX / 10 * 3 + 1, 0] = .ok (2, []) := by
  refine ⟨by decide, by decide, by decide⟩

/-- C12. The infinite-precision generator traces asserted by the test suite,
all with range `0xFFFFFFFF`: `[0]` returns 0, `[1, 2]` returns 1, `[1, 1, 0]`
returns 0 and `[1, 1, 2]` returns 1; each call consumes its whole script,
leaves it empty and does not read past its end. -/
theorem infinite_test_traces :
    RangeGeneratorInfinite.call ⟨4294967295⟩ [0] = .ok (0, []) ∧
    RangeGeneratorInfinite.call ⟨4294967295⟩ [1, 2] = .ok (1, []) ∧
    RangeGeneratorInfinite.call ⟨4294967295⟩ [1, 1, 0] = .ok (0, []) ∧
    RangeGeneratorInfinite.call ⟨4294967295⟩ [1, 1, 2] = .ok (1, []) := by
  refine ⟨by decide, by decide, by decide, by decide⟩

/-- C13, as stated, fails: the extended generator of range 10 on the script
`[0, 0, 0, 2]` does not return 0 leaving exactly one word unread. -/
theorem extended_scenario_three_words_refuted :
    ¬ ∃ w, RangeGeneratorExtended.call ⟨10⟩ [0, 0, 0, 2] = .ok (0, [w]) := by
  rintro ⟨w, h⟩
  have h2 : RangeGeneratorExtended.call ⟨10⟩ [0, 0, 0, 2] = .ok (0, []) := by decide
  rw [h2] at h
  cases h

/-- C13, amended. The extended generator of range 10 on the script
`[0, 0, 0, 2]` returns 0 and consumes all 4 scripted words: the first attempt
draws the words 0 and 0 and is rejected, the second attempt draws the words 0
and 2 and is accepted with integer part 0; on the first three words alone the
call reads past the end of the script. -/
theorem extended_scenario_four_words :
    RangeGeneratorExtended.call ⟨10⟩ [0, 0, 0, 2] = .ok (0, []) ∧
    [0, 0, 0, 2].length - ([] : List Nat).length = 4 ∧
    RangeGeneratorExtended.iteration ⟨10⟩ FixedPoint.new [0, 0, 0, 2]
      = .ok (true, ⟨0⟩, ⟨0⟩, [0, 2]) ∧
    RangeGeneratorExtended.iteration ⟨10⟩ ⟨0⟩ [0, 2] = .ok (false, ⟨0⟩, ⟨20⟩, []) ∧
    (FixedPoint.mk 0).floor = 0 ∧
    RangeGeneratorExtended.call ⟨10⟩ [0, 0, 0] = .error .underflow := by
  refine ⟨by decide, by decide, by decide, by decide, by decide, by decide⟩

/-! ## canZero and the second draw -/

theorem RangeGeneratorExtended.canZero_iff (R f : Nat) :
    RangeGeneratorExtended.canZero ⟨R⟩ f = true ↔ (2 ^ 32 - f) % 2 ^ 32 < R := by
  rw [RangeGeneratorExtended.canZero]
  exact decide_eq_true_iff

theorem RangeGeneratorExtended.iteration_single_underflow (g : RangeGeneratorExtended)
    (addend : FixedPoint) (w1 : Nat)
    (hcz : g.canZero (g.product w1).fraction = true) :
    g.iteration addend [w1] = .error .underflow := by
  simp only [RangeGeneratorExtended.iteration, hcz, if_true]

/-- C14. `canZero` characterises the possibility of zeroing the high fraction
word: for `1 <= R < 2^32` and a 32-bit `f`, `canZero(f)` is true exactly when
some carry `c` with `0 <= c <= R - 1` gives `(f + c) mod 2^32 = 0`; and an
attempt draws a second word exactly when `canZero(fraction(x))` is true: then
it consumes two words (and reads past the end of a one-word script),
otherwise it consumes one word and leaves `addend` untouched. -/
theorem canZero_characterisation (R f : Nat) (h1 : 1 ≤ R) (hR : R < 2 ^ 32)
    (hf : f < 2 ^ 32) :
    (RangeGeneratorExtended.canZero ⟨R⟩ f = true ↔
      ∃ c, c ≤ R - 1 ∧ (f + c) % 2 ^ 32 = 0) ∧
    (∀ (w1 w2 : Nat) (addend : FixedPoint) (rest : List Nat), w1 < 2 ^ 32 → w2 < 2 ^ 32 →
      (RangeGeneratorExtended.canZero ⟨R⟩
          (RangeGeneratorExtended.product ⟨R⟩ w1).fraction = true →
        (∃ b x a, RangeGeneratorExtended.iteration ⟨R⟩ addend (w1 :: w2 :: rest)
          = .ok (b, x, a, rest)) ∧
        RangeGeneratorExtended.iteration ⟨R⟩ addend [w1] = .error .underflow) ∧
      (RangeGeneratorExtended.canZero ⟨R⟩
          (RangeGeneratorExtended.product ⟨R⟩ w1).fraction = false →
        ∃ b x, RangeGeneratorExtended.iteration ⟨R⟩ addend (w1 :: rest)
          = .ok (b, x, addend, rest))) := by
  constructor
  · rw [RangeGeneratorExtended.canZero_iff]
    constructor
    · intro h
      exact ⟨(2 ^ 32 - f) % 2 ^ 32, by omega, by omega⟩
    · rintro ⟨c, hc, h0⟩
      omega
  · intro w1 w2 addend rest hw1 hw2
    constructor
    · intro hcz
      obtain ⟨hit, _⟩ :=
        RangeGeneratorExtended.iteration_drawn R w1 w2 h1 hR hw1 hw2 addend rest hcz
      exact ⟨⟨_, _, _, hit⟩,
        RangeGeneratorExtended.iteration_single_underflow ⟨R⟩ addend w1 hcz⟩
    · intro hcz
      obtain ⟨hit, _, _⟩ :=
        RangeGeneratorExtended.iteration_not_drawn R w1 w2 h1 hR hw1 hw2 addend rest hcz
      exact ⟨_, _, hit⟩

/-- Witness for `canZero_characterisation`: range 10 and `f = 2^32 - 8`, which
the carry 8 zeroes. -/
theorem canZero_characterisation_witness :
    RangeGeneratorExtended.canZero ⟨10⟩ 4294967288 = true ∧
    ∃ c, c ≤ 10 - 1 ∧ (4294967288 + c) % 2 ^ 32 = 0 :=
  ⟨by decide, (canZero_characterisation 10 4294967288 (by decide) (by decide)
    (by decide)).1.mp (by decide)⟩

/-- C15, as stated, fails at `f = 0`: with range 10, `canZero(0)` is true while
the distance `2^32 - 0` is not less than 10. -/
theorem canZero_distance_refuted :
    ¬ (RangeGeneratorExtended.canZero ⟨10⟩ 0 = true ↔ 2 ^ 32 - 0 < 10) := by
  intro h
  have h2 : 2 ^ 32 - 0 < 10 := h.mp (by decide)
  omega

/-- C15, amended. For `1 <= R < 2^32` and a 32-bit fraction `f`, `canZero(f)`
is true exactly when `f = 0` or the distance `2^32 - f` from `f` up to `2^32`
is less than `R`. -/
theorem canZero_distance (R f : Nat) (h1 : 1 ≤ R) (hR : R < 2 ^ 32) (hf : f < 2 ^ 32) :
    RangeGeneratorExtended.canZero ⟨R⟩ f = true ↔ (f = 0 ∨ 2 ^ 32 - f < R) := by
  rw [RangeGeneratorExtended.canZero_iff]
  omega

/-- Witness for `canZero_distance`: range 10 at `f = 0`, where the first
alternative holds. -/
theorem canZero_distance_witness :
    RangeGeneratorExtended.canZero ⟨10⟩ 0 = true ↔ (0 = 0 ∨ 2 ^ 32 - 0 < 10) :=
  canZero_distance 10 0 (by decide) (by decide) (by decide)

/-- C18, as stated, fails at range 0: for the first word 5, `canZero` of the
fraction is false and yet the fraction is 0. -/
theorem stale_addend_range_zero_refuted :
    RangeGeneratorExtended.canZero ⟨0⟩
        (RangeGeneratorExtended.product ⟨0⟩ 5).fraction = false ∧
    ¬ (RangeGeneratorExtended.product ⟨0⟩ 5).fraction ≠ 0 := by
  refine ⟨by decide, by decide⟩

/-- C18, amended. For `1 <= R < 2^32` and a 32-bit first word `w1`: if
`canZero(fraction(w1*R))` is false then `fraction(w1*R) != 0`, so the loop
condition is false whatever value `addend` holds, no second word is drawn,
`addend` keeps its value, and the attempt is accepted with result
`floor(w1*R / 2^32)`. -/
theorem stale_addend_not_consulted (R w1 : Nat) (h1 : 1 ≤ R) (hR : R < 2 ^ 32)
    (hw1 : w1 < 2 ^ 32)
    (hcz : RangeGeneratorExtended.canZero ⟨R⟩
      (RangeGeneratorExtended.product ⟨R⟩ w1).fraction = false)
    (addend : FixedPoint) (rest : List Nat) :
    (RangeGeneratorExtended.product ⟨R⟩ w1).fraction = w1 * R % 2 ^ 32 ∧
    (RangeGeneratorExtended.product ⟨R⟩ w1).fraction ≠ 0 ∧
    RangeGeneratorExtended.loopCondition ⟨R⟩ (RangeGeneratorExtended.product ⟨R⟩ w1) addend
      = .ok false ∧
    RangeGeneratorExtended.iteration ⟨R⟩ addend (w1 :: rest)
      = .ok (false, RangeGeneratorExtended.product ⟨R⟩ w1, addend, rest) ∧
    RangeGeneratorExtended.loop ⟨R⟩ addend (w1 :: rest) = .ok (w1 * R / 2 ^ 32, rest) := by
  obtain ⟨hne, _, _⟩ := RangeGeneratorExtended.canZero_false R w1 0 h1 hR hw1 (by omega) hcz
  obtain ⟨hit, _, _⟩ :=
    RangeGeneratorExtended.iteration_not_drawn R w1 0 h1 hR hw1 (by omega) addend rest hcz
  have hfl : (RangeGeneratorExtended.product ⟨R⟩ w1).floor = w1 * R / 2 ^ 32 :=
    FixedPoint.product_floor w1 R hw1 hR
  refine ⟨FixedPoint.product_fraction w1 R hw1 hR, hne, ?_, hit, ?_⟩
  · rw [RangeGeneratorExtended.loopCondition, if_neg hne]
  · rw [RangeGeneratorExtended.loop_step, hit, ← hfl]

/-- Witness for `stale_addend_not_consulted`: range 10, first word 1 and a
stale `addend` of value 3. -/
theorem stale_addend_not_consulted_witness :
    RangeGeneratorExtended.canZero ⟨10⟩
        (RangeGeneratorExtended.product ⟨10⟩ 1).fraction = false ∧
    RangeGeneratorExtended.loop ⟨10⟩ ⟨3⟩ (1 :: [7]) = .ok (1 * 10 / 2 ^ 32, [7]) :=
  ⟨by decide, (stale_addend_not_consulted 10 1 (by decide) (by decide) (by decide)
    (by decide) ⟨3⟩ [7]).2.2.2.2⟩

/-! ## The first fraction of a band -/

theorem band_first_word (R v : Nat) (h1 : 1 ≤ R) (hR : R < 2 ^ 32) (hv : v < R) :
    v * 2 ^ 32 ≤ (v * 2 ^ 32 + R - 1) / R * R ∧
    (v * 2 ^ 32 + R - 1) / R * R < v * 2 ^ 32 + R ∧
    (v * 2 ^ 32 + R - 1) / R < 2 ^ 32 := by
  have hlo : v * 2 ^ 32 ≤ (v * 2 ^ 32 + R - 1) / R * R :=
    (le_mul_iff_ceil R (v * 2 ^ 32) _ (by omega)).mpr (Nat.le_refl _)
  have hhi : (v * 2 ^ 32 + R - 1) / R * R ≤ v * 2 ^ 32 + R - 1 := Nat.div_mul_le_self _ _
  refine ⟨hlo, by omega, ?_⟩
  have hlt : (v * 2 ^ 32 + R - 1) / R * R < 2 ^ 32 * R := by
    have hb : (v + 1) * 2 ^ 32 ≤ R * 2 ^ 32 := Nat.mul_le_mul_right _ (by omega)
    have hc : R * 2 ^ 32 = 2 ^ 32 * R := Nat.mul_comm _ _
    omega
  exact Nat.lt_of_mul_lt_mul_right hlt

/-- C16. The first-fraction rule: for `1 <= R < 2^32`, any state of the cache
field and every `v < R`, there is a 32-bit word `w0` whose product has integer
part `v` and passes `isFirstFraction`; it is the smallest word with integer
part `v` and the only one with integer part `v` passing `isFirstFraction`; the
words with integer part `v` are consecutive; and between two consecutive words
with integer part `v` the fraction increases by exactly `R`. -/
theorem first_fraction_rule (R v cache : Nat) (h1 : 1 ≤ R) (hR : R < 2 ^ 32) (hv : v < R) :
    ∃ w0, w0 < 2 ^ 32 ∧
      (RangeGenerator.product ⟨R, cache⟩ w0).floor = v ∧
      RangeGenerator.isFirstFraction ⟨R, cache⟩
        (RangeGenerator.product ⟨R, cache⟩ w0).fraction = true ∧
      (∀ w, w < 2 ^ 32 → (RangeGenerator.product ⟨R, cache⟩ w).floor = v → w0 ≤ w) ∧
      (∀ w, w < 2 ^ 32 → (RangeGenerator.product ⟨R, cache⟩ w).floor = v →
        RangeGenerator.isFirstFraction ⟨R, cache⟩
          (RangeGenerator.product ⟨R, cache⟩ w).fraction = true → w = w0) ∧
      (∀ w, w + 1 < 2 ^ 32 → (RangeGenerator.product ⟨R, cache⟩ w).floor = v →
        (RangeGenerator.product ⟨R, cache⟩ (w + 1)).floor = v →
        (RangeGenerator.product ⟨R, cache⟩ (w + 1)).fraction
          = (RangeGenerator.product ⟨R, cache⟩ w).fraction + R) ∧
      (∀ a b c, a ≤ b → b ≤ c → c < 2 ^ 32 →
        (RangeGenerator.product ⟨R, cache⟩ a).floor = v →
        (RangeGenerator.product ⟨R, cache⟩ c).floor = v →
        (RangeGenerator.product ⟨R, cache⟩ b).floor = v) := by
  have hfl : ∀ w, w < 2 ^ 32 →
      (RangeGenerator.product ⟨R, cache⟩ w).floor = w * R / 2 ^ 32 :=
    fun w hw => FixedPoint.product_floor w R hw hR
  have hfr : ∀ w, w < 2 ^ 32 →
      (RangeGenerator.product ⟨R, cache⟩ w).fraction = w * R % 2 ^ 32 :=
    fun w hw => FixedPoint.product_fraction w R hw hR
  obtain ⟨hlo, hhi, hlt⟩ := band_first_word R v h1 hR hv
  have hmin : ∀ w, w < 2 ^ 32 → w * R / 2 ^ 32 = v → (v * 2 ^ 32 + R - 1) / R ≤ w := by
    intro w _ hwv
    apply (le_mul_iff_ceil R (v * 2 ^ 32) w (by omega)).mp
    omega
  refine ⟨(v * 2 ^ 32 + R - 1) / R, hlt, ?_, ?_, ?_, ?_, ?_, ?_⟩
  · rw [hfl _ hlt]; omega
  · rw [hfr _ hlt, RangeGenerator.isFirstFraction]
    apply decide_eq_true
    show (v * 2 ^ 32 + R - 1) / R * R % 2 ^ 32 < R
    omega
  · intro w hw hwv
    rw [hfl w hw] at hwv
    exact hmin w hw hwv
  · intro w hw hwv hfirst
    rw [hfl w hw] at hwv
    rw [hfr w hw, RangeGenerator.isFirstFraction] at hfirst
    have hf : w * R % 2 ^ 32 < R := of_decide_eq_true hfirst
    have hge := hmin w hw hwv
    by_contra hne
    have hstep : ((v * 2 ^ 32 + R - 1) / R + 1) * R ≤ w * R :=
      Nat.mul_le_mul_right R (by omega)
    rw [Nat.add_mul, Nat.one_mul] at hstep
    omega
  · intro w hw hwv hwv1
    have hw0 : w < 2 ^ 32 := by omega
    rw [hfl w hw0] at hwv
    rw [hfl (w + 1) hw] at hwv1
    rw [hfr w hw0, hfr (w + 1) hw]
    have hsucc : (w + 1) * R = w * R + R := by rw [Nat.add_mul, Nat.one_mul]
    rw [hsucc] at hwv1 ⊢
    omega
  · intro a b c hab hbc hc ha hcv
    rw [hfl a (by omega)] at ha
    rw [hfl c hc] at hcv
    rw [hfl b (by omega)]
    have h1 : a * R ≤ b * R := Nat.mul_le_mul_right R hab
    have h2 : b * R ≤ c * R := Nat.mul_le_mul_right R hbc
    omega

/-- Witness for `first_fraction_rule`: range 10 and `v = 3` on a fresh
generator. -/
theorem first_fraction_rule_witness :
    ∃ w0, w0 < 2 ^ 32 ∧
      (RangeGenerator.product ⟨10, UINT_MAX⟩ w0).floor = 3 ∧
      RangeGenerator.isFirstFraction ⟨10, UINT_MAX⟩
        (RangeGenerator.product ⟨10, UINT_MAX⟩ w0).fraction = true ∧
      (∀ w, w < 2 ^ 32 → (RangeGenerator.product ⟨10, UINT_MAX⟩ w).floor = 3 → w0 ≤ w) ∧
      (∀ w, w < 2 ^ 32 → (RangeGenerator.product ⟨10, UINT_MAX⟩ w).floor = 3 →
        RangeGenerator.isFirstFraction ⟨10, UINT_MAX⟩
          (RangeGenerator.product ⟨10, UINT_MAX⟩ w).fraction = true → w = w0) ∧
      (∀ w, w + 1 < 2 ^ 32 → (RangeGenerator.product ⟨10, UINT_MAX⟩ w).floor = 3 →
        (RangeGenerator.product ⟨10, UINT_MAX⟩ (w + 1)).floor = 3 →
        (RangeGenerator.product ⟨10, UINT_MAX⟩ (w + 1)).fraction
          = (RangeGenerator.product ⟨10, UINT_MAX⟩ w).fraction + 10) ∧
      (∀ a b c, a ≤ b → b ≤ c → c < 2 ^ 32 →
        (RangeGenerator.product ⟨10, UINT_MAX⟩ a).floor = 3 →
        (RangeGenerator.product ⟨10, UINT_MAX⟩ c).floor = 3 →
        (RangeGenerator.product ⟨10, UINT_MAX⟩ b).floor = 3) :=
  first_fraction_rule 10 3 UINT_MAX (by decide) (by decide) (by decide)

/-! ## Extended generator constructed with range 0 -/

theorem RangeGeneratorExtended.zero_product (w : Nat) :
    RangeGeneratorExtended.product ⟨0⟩ w = ⟨0⟩ := by
  simp [RangeGeneratorExtended.product, FixedPoint.mul]

theorem RangeGeneratorExtended.zero_canZero (f : Nat) :
    RangeGeneratorExtended.canZero ⟨0⟩ f = false := by
  simp [RangeGeneratorExtended.canZero]

theorem RangeGeneratorExtended.zero_loopCondition (x addend : FixedPoint) :
    RangeGeneratorExtended.loopCondition ⟨0⟩ x addend = .ok false := by
  rw [RangeGeneratorExtended.loopCondition]
  by_cases hx : x.fraction = 0
  · rw [if_pos hx, RangeGeneratorExtended.isRejectedValue,
      RangeGeneratorExtended.isFirstFraction]
    simp
  · rw [if_neg hx]

theorem RangeGeneratorExtended.zero_loop (addend : FixedPoint) (w : Nat) (rest : List Nat) :
    RangeGeneratorExtended.loop ⟨0⟩ addend (w :: rest) = .ok (0, rest) := by
  have hit : RangeGeneratorExtended.iteration ⟨0⟩ addend (w :: rest)
      = .ok (false, ⟨0⟩, addend, rest) := by
    cases rest with
    | nil =>
      simp only [RangeGeneratorExtended.iteration, RangeGeneratorExtended.zero_canZero,
        Bool.false_eq_true, if_false, RangeGeneratorExtended.zero_loopCondition,
        RangeGeneratorExtended.zero_product]
    | cons w2 rest2 =>
      simp only [RangeGeneratorExtended.iteration, RangeGeneratorExtended.zero_canZero,
        Bool.false_eq_true, if_false, RangeGeneratorExtended.zero_loopCondition,
        RangeGeneratorExtended.zero_product]
  rw [RangeGeneratorExtended.loop_step, hit]
  rfl

theorem RangeGeneratorExtended.zero_call_ne_divByZero (script : List Nat) :
    RangeGeneratorExtended.call ⟨0⟩ script ≠ .error .divByZero := by
  cases script with
  | nil => intro h; cases h
  | cons w rest =>
    rw [RangeGeneratorExtended.call, RangeGeneratorExtended.zero_loop]
    intro h
    cases h

/-- C17, as stated, fails: no entropy script makes a call of the extended
generator constructed with range 0 evaluate the remainder by zero. -/
theorem extended_range_zero_refuted :
    ¬ ∃ script : List Nat, RangeGeneratorExtended.call ⟨0⟩ script = .error .divByZero := by
  rintro ⟨script, h⟩
  exact RangeGeneratorExtended.zero_call_ne_divByZero script h

/-- C17, amended. The extended generator constructed with range 0 never
evaluates its threshold `2^64 mod range` in a call, although evaluating it
would be a remainder by zero: `canZero` is false for every fraction, the
`f < range` test fails first for every fraction, so the loop condition is
false, and on every non-empty script the call consumes exactly one word and
returns 0. -/
theorem extended_range_zero_returns (w : Nat) (rest : List Nat) (f : Nat)
    (x addend : FixedPoint) :
    RangeGeneratorExtended.call ⟨0⟩ (w :: rest) = .ok (0, rest) ∧
    RangeGeneratorExtended.extraValueThreshold ⟨0⟩ = .error .divByZero ∧
    RangeGeneratorExtended.canZero ⟨0⟩ f = false ∧
    RangeGeneratorExtended.isFirstFraction ⟨0⟩ f = false ∧
    RangeGeneratorExtended.isRejectedValue ⟨0⟩ f = .ok false ∧
    RangeGeneratorExtended.loopCondition ⟨0⟩ x addend = .ok false := by
  refine ⟨?_, rfl, RangeGeneratorExtended.zero_canZero f, ?_, ?_,
    RangeGeneratorExtended.zero_loopCondition x addend⟩
  · rw [RangeGeneratorExtended.call, RangeGeneratorExtended.zero_loop]
  · simp [RangeGeneratorExtended.isFirstFraction]
  · simp [RangeGeneratorExtended.isRejectedValue, RangeGeneratorExtended.isFirstFraction]

/-! ## Unbounded consumption of the infinite-precision generator -/

theorem RangeGeneratorInfinite.all_ones_product (R : Nat) (h1 : 1 ≤ R) (hR : R < 2 ^ 32) :
    ((FixedPoint.new.setFraction 4294967295).mul R).floor = R - 1 ∧
    ((FixedPoint.new.setFraction 4294967295).mul R).fraction = 2 ^ 32 - R := by
  rw [FixedPoint.product_floor 4294967295 R (by omega) hR,
    FixedPoint.product_fraction 4294967295 R (by omega) hR]
  constructor <;> omega

theorem RangeGeneratorInfinite.carry_tie_step (R : Nat) (h1 : 1 ≤ R) (hR : R < 2 ^ 32)
    (rest : List Nat) :
    RangeGeneratorInfinite.carry ⟨R⟩ (2 ^ 32 - R) (4294967295 :: rest)
      = RangeGeneratorInfinite.carry ⟨R⟩ (2 ^ 32 - R) rest := by
  obtain ⟨hfl, hfr⟩ := RangeGeneratorInfinite.all_ones_product R h1 hR
  have hc : (R + (2 ^ 32 - R)) % 2 ^ 32 < 2 ^ 32 - R := by omega
  have hwrap : ¬ (R - 1 + (2 ^ 32 - R)) % 2 ^ 32 < 2 ^ 32 - R := by omega
  have htie : (R - 1 + (2 ^ 32 - R)) % 2 ^ 32 = 4294967295 := by omega
  conv_lhs => rw [RangeGeneratorInfinite.carry]
  rw [if_pos hc]
  simp only [hfl, hfr]
  rw [if_neg hwrap, if_pos htie]

theorem RangeGeneratorInfinite.carry_ties (R : Nat) (h1 : 1 ≤ R) (hR : R < 2 ^ 32)
    (k : Nat) (ext : List Nat) :
    RangeGeneratorInfinite.carry ⟨R⟩ (2 ^ 32 - R) (List.replicate k 4294967295 ++ ext)
      = RangeGeneratorInfinite.carry ⟨R⟩ (2 ^ 32 - R) ext := by
  induction k with
  | zero => rfl
  | succ k ih =>
    rw [List.replicate_succ, List.cons_append,
      RangeGeneratorInfinite.carry_tie_step R h1 hR, ih]

theorem RangeGeneratorInfinite.call_all_ones (R : Nat) (h1 : 1 ≤ R) (hR : R < 2 ^ 32)
    (k : Nat) (ext : List Nat) :
    RangeGeneratorInfinite.call ⟨R⟩ (List.replicate (k + 1) 4294967295 ++ ext)
      = match RangeGeneratorInfinite.carry ⟨R⟩ (2 ^ 32 - R) ext with
        | .error e => .error e
        | .ok (c, rest) => .ok ((R - 1 + c) % 2 ^ 32, rest) := by
  obtain ⟨hfl, hfr⟩ := RangeGeneratorInfinite.all_ones_product R h1 hR
  rw [List.replicate_succ, List.cons_append, RangeGeneratorInfinite.call]
  simp only [hfl, hfr, RangeGeneratorInfinite.carry_ties R h1 hR]

theorem RangeGeneratorInfinite.carry_empty (R : Nat) (h1 : 1 ≤ R) (hR : R < 2 ^ 32) :
    RangeGeneratorInfinite.carry ⟨R⟩ (2 ^ 32 - R) [] = .error .underflow := by
  have hc : (R + (2 ^ 32 - R)) % 2 ^ 32 < 2 ^ 32 - R := by omega
  rw [RangeGeneratorInfinite.carry, if_pos hc]

theorem RangeGeneratorInfinite.carry_zero_word (R : Nat) (h1 : 1 ≤ R) (hR : R < 2 ^ 32) :
    RangeGeneratorInfinite.carry ⟨R⟩ (2 ^ 32 - R) [0] = .ok (0, []) := by
  have hc : (R + (2 ^ 32 - R)) % 2 ^ 32 < 2 ^ 32 - R := by omega
  have hfl : ((FixedPoint.new.setFraction 0).mul R).floor = 0 := by
    rw [FixedPoint.product_floor 0 R (by omega) hR]; omega
  have hfr : ((FixedPoint.new.setFraction 0).mul R).fraction = 0 := by
    rw [FixedPoint.product_fraction 0 R (by omega) hR]; omega
  have hwrap : ¬ (0 + (2 ^ 32 - R)) % 2 ^ 32 < 2 ^ 32 - R := by omega
  conv_lhs => rw [RangeGeneratorInfinite.carry]
  rw [if_pos hc]
  simp only [hfl, hfr]
  rw [if_neg hwrap]
  by_cases htie : (0 + (2 ^ 32 - R)) % 2 ^ 32 = 4294967295
  · have hnc : ¬ (R + 0) % 2 ^ 32 < 0 := by omega
    rw [if_pos htie, RangeGeneratorInfinite.carry, if_neg hnc]
  · rw [if_neg htie]

theorem RangeGeneratorInfinite.carry_step_cases (g : RangeGeneratorInfinite)
    (fprev w : Nat) (rest : List Nat) :
    g.carry fprev (w :: rest) = .ok (0, w :: rest) ∨
    g.carry fprev (w :: rest) = .ok (1, rest) ∨
    g.carry fprev (w :: rest) = .ok (0, rest) ∨
    g.carry fprev (w :: rest)
      = g.carry ((FixedPoint.new.setFraction w).mul g.range).fraction rest := by
  by_cases hc : (g.range + fprev) % 2 ^ 32 < fprev
  · by_cases hwrap : (((FixedPoint.new.setFraction w).mul g.range).floor + fprev) % 2 ^ 32
        < fprev
    · refine Or.inr (Or.inl ?_)
      rw [RangeGeneratorInfinite.carry, if_pos hc]
      simp only []
      rw [if_pos hwrap]
    · by_cases htie : (((FixedPoint.new.setFraction w).mul g.range).floor + fprev) % 2 ^ 32
          = 4294967295
      · refine Or.inr (Or.inr (Or.inr ?_))
        conv_lhs => rw [RangeGeneratorInfinite.carry]
        rw [if_pos hc]
        simp only []
        rw [if_neg hwrap, if_pos htie]
      · refine Or.inr (Or.inr (Or.inl ?_))
        rw [RangeGeneratorInfinite.carry, if_pos hc]
        simp only []
        rw [if_neg hwrap, if_neg htie]
  · refine Or.inl ?_
    rw [RangeGeneratorInfinite.carry, if_neg hc]

/-- C19. Unbounded consumption of the infinite-precision generator: for
`1 <= R < 2^32` and `n >= 1`, on a script of `n` words all equal to
`0xFFFFFFFF` the call consumes all `n` words and requests a further one (it
reads past the end of the script); every carry step there is an exact tie
`cur_sum == 0xFFFFFFFF` from the same fraction `2^32 - R`, so on any
continuation the result is decided by the words after the `n` ones; with one
more word 0 the call returns `R - 1` having consumed `n + 1` words, so no bound
on the draws of a call exists; and on any script a carry step returns without
drawing or draws exactly one word. -/
theorem infinite_unbounded_consumption (R n : Nat) (h1 : 1 ≤ R) (hR : R < 2 ^ 32)
    (hn : 1 ≤ n) :
    RangeGeneratorInfinite.call ⟨R⟩ (List.replicate n 4294967295) = .error .underflow ∧
    (∀ ext : List Nat,
      RangeGeneratorInfinite.call ⟨R⟩ (List.replicate n 4294967295 ++ ext)
        = match RangeGeneratorInfinite.carry ⟨R⟩ (2 ^ 32 - R) ext with
          | .error e => .error e
          | .ok (c, rest) => .ok ((R - 1 + c) % 2 ^ 32, rest)) ∧
    (((FixedPoint.new.setFraction 4294967295).mul R).floor = R - 1 ∧
      ((FixedPoint.new.setFraction 4294967295).mul R).fraction = 2 ^ 32 - R ∧
      (R + (2 ^ 32 - R)) % 2 ^ 32 < 2 ^ 32 - R ∧
      ¬ (R - 1 + (2 ^ 32 - R)) % 2 ^ 32 < 2 ^ 32 - R ∧
      (R - 1 + (2 ^ 32 - R)) % 2 ^ 32 = 4294967295) ∧
    RangeGeneratorInfinite.call ⟨R⟩ (List.replicate n 4294967295 ++ [0])
      = .ok (R - 1, []) ∧
    (∀ (fprev w : Nat) (rest : List Nat),
      RangeGeneratorInfinite.carry ⟨R⟩ fprev (w :: rest) = .ok (0, w :: rest) ∨
      RangeGeneratorInfinite.carry ⟨R⟩ fprev (w :: rest) = .ok (1, rest) ∨
      RangeGeneratorInfinite.carry ⟨R⟩ fprev (w :: rest) = .ok (0, rest) ∨
      RangeGeneratorInfinite.carry ⟨R⟩ fprev (w :: rest)
        = RangeGeneratorInfinite.carry ⟨R⟩
            ((FixedPoint.new.setFraction w).mul R).fraction rest) := by
  obtain ⟨k, rfl⟩ : ∃ k, n = k + 1 := ⟨n - 1, by omega⟩
  obtain ⟨hfl, hfr⟩ := RangeGeneratorInfinite.all_ones_product R h1 hR
  have hcall := RangeGeneratorInfinite.call_all_ones R h1 hR k
  refine ⟨?_, hcall, ⟨hfl, hfr, by omega, by omega, by omega⟩, ?_, ?_⟩
  · have h := hcall []
    rw [List.append_nil, RangeGeneratorInfinite.carry_empty R h1 hR] at h
    exact h
  · rw [hcall [0], RangeGeneratorInfinite.carry_zero_word R h1 hR]
    show Except.ok ((R - 1 + 0) % 2 ^ 32, []) = _
    have hmod : (R - 1 + 0) % 2 ^ 32 = R - 1 := by omega
    rw [hmod]
  · intro fprev w rest
    exact RangeGeneratorInfinite.carry_step_cases ⟨R⟩ fprev w rest

/-- Witness for `infinite_unbounded_consumption`: range 10 and three words
`0xFFFFFFFF`. -/
theorem infinite_unbounded_consumption_witness :
    RangeGeneratorInfinite.call ⟨10⟩ (List.replicate 3 4294967295) = .error .underflow ∧
    RangeGeneratorInfinite.call ⟨10⟩ (List.replicate 3 4294967295 ++ [0]) = .ok (10 - 1, []) :=
  ⟨(infinite_unbounded_consumption 10 3 (by decide) (by decide) (by decide)).1,
    (infinite_unbounded_consumption 10 3 (by decide) (by decide) (by decide)).2.2.2.1⟩

end RangeGen
